import Mathlib

/-!
Verification development for the `qs` CMake scaffolding tool
(`src/project.go`, `src/main.go`).

A configuration document is modelled as a `List Char` (Go strings are byte
strings; all documents handled by the tool are ASCII, so characters model
bytes faithfully).  The filesystem is modelled abstractly by `FSModel`
(`os.Stat`, `os.ReadDir`, `filepath.Glob` as oracles).  The regular
expressions used by the tool are simple (a quoted literal followed by a
character class, or a literal followed by a greedy negated class and a
closing literal); they are embedded as explicit scanners that implement
RE2's leftmost-first semantics for exactly these shapes.
-/

namespace QS

abbrev Str := List Char

/-- `strings.Contains pat s`: `pat` occurs as a contiguous substring of `s`. -/
def occurs (pat : Str) : Str → Bool
  | [] => pat.isEmpty
  | c :: rest => pat.isPrefixOf (c :: rest) || occurs pat rest

/-- Number of start positions at which `pat` occurs in `s` (used to state
claims of the form "exactly one statement is present"). -/
def countOcc (pat : Str) : Str → Nat
  | [] => 0
  | c :: rest => (if pat.isPrefixOf (c :: rest) then 1 else 0) + countOcc pat rest

/-- The characters of Go regexp's Perl class over ASCII text:
the class used by the patterns in project.go. -/
def goRegexSpace (c : Char) : Bool :=
  c = '\t' || c = '\n' || c = '\x0c' || c = '\r' || c = ' '

/-- The ASCII whitespace recognized by `strings.TrimSpace` (`unicode.IsSpace`
restricted to ASCII; the documents the tool edits are ASCII). -/
def goSpace (c : Char) : Bool :=
  c = ' ' || c = '\t' || c = '\n' || c = '\x0b' || c = '\x0c' || c = '\r'

/-- `strings.TrimSpace` (project.go line 401). -/
def trimSpace (l : Str) : Str :=
  ((l.dropWhile goSpace).reverse.dropWhile goSpace).reverse

/-- `strings.Split(s, "\n")` (project.go line 396): split on newline,
keeping empty segments; always returns at least one segment. -/
def splitLines : Str → List Str
  | [] => [[]]
  | c :: rest =>
    if c = '\n' then [] :: splitLines rest
    else
      match splitLines rest with
      | [] => [[c]]
      | l :: ls => (c :: l) :: ls

/-- `removeDuplicates` (project.go lines 588-600): keep the first occurrence
of each string, preserving order. -/
def removeDuplicates (files : List Str) : List Str :=
  files.foldl (fun acc f => if f ∈ acc then acc else acc ++ [f]) []

/-- `strings.Replace(file, "\\", "/", -1)` (project.go line 381). -/
def normalizeSeps (f : Str) : Str :=
  f.map (fun c => if c = '\\' then '/' else c)

/-- `containsGlobChar` (project.go lines 562-564). -/
def containsGlobChar (p : Str) : Bool :=
  p.any (fun c => c = '*' || c = '?' || c = '[')

/-- Helper for `filepathExt`: scans the reversed path. -/
def findExtAux (acc : Str) : Str → Str
  | [] => []
  | c :: rest =>
    if c = '/' then [] else if c = '.' then '.' :: acc else findExtAux (c :: acc) rest

/-- `filepath.Ext`: suffix from the final dot in the final path element. -/
def filepathExt (f : Str) : Str := findExtAux [] f.reverse

/-- `isSourceFile` (project.go lines 557-560). -/
def isSourceFile (f : Str) : Bool :=
  let ext := filepathExt f
  ext == ".cpp".data || ext == ".c".data || ext == ".cc".data || ext == ".cxx".data ||
    ext == ".h".data || ext == ".hpp".data || ext == ".hxx".data

/-- Decimal digit character. -/
def digitChar (n : Nat) : Char := Char.ofNat (48 + n)

/-- Fuelled decimal rendering (the fuel is an upper bound on digit count). -/
def natDigitsF : Nat → Nat → Str
  | 0, n => [digitChar (n % 10)]
  | fuel + 1, n =>
    if n < 10 then [digitChar n] else natDigitsF fuel (n / 10) ++ [digitChar (n % 10)]

/-- `fmt.Sprintf("%d", n)` for a natural number. -/
def natDigits (n : Nat) : Str := natDigitsF n n

/-! ## Filesystem model -/

/-- Abstract filesystem: `stat p = some b` means the path exists and `b`
tells whether it is a directory; `entries` models `os.ReadDir` (name and
is-directory flag per entry, in directory order); `glob` models
`filepath.Glob` (`none` = `ErrBadPattern`). -/
structure FSModel where
  stat : Str → Option Bool
  entries : Str → List (Str × Bool)
  glob : Str → Option (List Str)

/-- `fileExists` (project.go lines 549-555): path exists and is not a directory. -/
def fileExists (fs : FSModel) (p : Str) : Bool := decide (fs.stat p = some false)

/-- `isDir` (project.go lines 541-547). -/
def isDirFS (fs : FSModel) (p : Str) : Bool := decide (fs.stat p = some true)

/-- `filepath.Join(d, f)` for the two-argument uses in project.go
(the `Clean` normalization of `filepath.Join` is a no-op for the
slash-free directory names and entry names involved). -/
def joinPath (d f : Str) : Str := if d.isEmpty then f else d ++ '/' :: f

/-- `findSourceFiles` (project.go lines 566-586): non-directory entries with
a recognized source extension, joined to the directory path, in order. -/
def findSourceFiles (fs : FSModel) (dirPath : Str) : List Str :=
  (fs.entries dirPath).foldl
    (fun acc e =>
      if e.2 then acc
      else if isSourceFile e.1 then acc ++ [joinPath dirPath e.1] else acc) []

/-! ## addTarget: source-file resolution (project.go lines 294-374) -/

/-- One iteration of the pattern loop of `addTarget`
(project.go lines 337-367): glob expansion (filtered by `isSourceFile`),
explicit existing file (added verbatim), directory collection, or a
warning that leaves the accumulator unchanged. -/
def expandPattern (fs : FSModel) (acc : List Str) (pattern : Str) : List Str :=
  if containsGlobChar pattern then
    match fs.glob pattern with
    | none => acc
    | some ms => if ms.isEmpty then acc else acc ++ ms.filter isSourceFile
  else if fileExists fs pattern then acc ++ [pattern]
  else if isDirFS fs pattern then acc ++ findSourceFiles fs pattern
  else acc

/-- The extensions probed for a bare target name (project.go line 318). -/
def probeExts : List Str := [".cpp".data, ".cc".data, ".c".data, ".cxx".data]

/-- The extension probe of `addTarget` (project.go lines 316-334). -/
def probeMainFile (fs : FSModel) (t : Str) : Option Str :=
  (probeExts.find? (fun e => fileExists fs (t ++ e))).map (fun e => t ++ e)

/-- Source-file resolution of `addTarget` (project.go lines 304-368);
`none` models the early error returns ("No source files found in
directory", "No source file found for target"). -/
def resolveSourceFiles (fs : FSModel) (t : Str) (srcs : List Str) : Option (List Str) :=
  if srcs.isEmpty then
    if isDirFS fs t then
      let found := findSourceFiles fs t
      if found.isEmpty then none else some found
    else
      match probeMainFile fs t with
      | some f => some [f]
      | none => none
  else
    some (srcs.foldl (expandPattern fs) [])

/-! ## addTarget: the pattern-based document editor (project.go lines 376-455) -/

/-- The literal part of the detection regex
(with the target name quoted by `regexp.QuoteMeta`). -/
def declOpen (t : Str) : Str := "add_executable(".data ++ t

/-- The literal group 1 of the merge regex. -/
def hdrOf (t : Str) : Str := declOpen t ++ ['\n']

/-- At-position test for the detection regex
(project.go line 385): the quoted literal followed by one
whitespace-class character. -/
def matchWSAt (t : Str) (s : Str) : Bool :=
  (declOpen t).isPrefixOf s &&
    match s.drop (declOpen t).length with
    | c :: _ => goRegexSpace c
    | [] => false

/-- Existence of a match at some position (`regexp.MatchString`). -/
def scanAny (test : Str → Bool) : Str → Bool
  | [] => test []
  | c :: rest => test (c :: rest) || scanAny test rest

/-- `targetExists` (project.go lines 385-386). -/
def targetExistsIn (t doc : Str) : Bool := scanAny (matchWSAt t) doc

/-- At-position match of the merge regex (project.go line 390) with groups:
group 1 (the header literal including newline), group 2 (the greedy
nonempty run of non-close-paren characters) and group 3 (the closing
parenthesis).  Returns group 2 and the text after the whole match. -/
def tryBlockAt (t : Str) (s : Str) : Option (Str × Str) :=
  if (hdrOf t).isPrefixOf s then
    let rest := s.drop (hdrOf t).length
    let body := rest.takeWhile (fun c => c != ')')
    let after := rest.drop body.length
    if body.isEmpty then none
    else if after.head? = some ')' then some (body, after.tail)
    else none
  else none

/-- `regexp.FindStringSubmatch` for the merge regex: the leftmost match,
returned as (text before the match, group 2, text after the match). -/
def findBlockSplit (t : Str) : Str → Option (Str × Str × Str)
  | [] => none
  | c :: rest =>
    match tryBlockAt t (c :: rest) with
    | some bp => some ([], bp.1, bp.2)
    | none => (findBlockSplit t rest).map (fun x => (c :: x.1, x.2.1, x.2.2))

/-- Fuelled generic `regexp.ReplaceAllString` with a constant replacement:
replace each leftmost non-overlapping match, continuing after it. -/
def scanReplaceF (step : Str → Option (Str × Str)) (repl : Str) : Nat → Str → Str
  | 0, s => s
  | _ + 1, [] => []
  | fuel + 1, c :: rest =>
    match step (c :: rest) with
    | some bp => repl ++ scanReplaceF step repl fuel bp.2
    | none => c :: scanReplaceF step repl fuel rest

/-- `regexp.ReplaceAllString` with a constant replacement. -/
def scanReplace (step : Str → Option (Str × Str)) (repl : Str) (s : Str) : Str :=
  scanReplaceF step repl s.length s

/-- Fuelled generic `regexp.FindAllStringSubmatch`: collect the payloads of
the leftmost non-overlapping matches. -/
def scanCollectF (step : Str → Option (Str × Str)) : Nat → Str → List Str
  | 0, _ => []
  | _ + 1, [] => []
  | fuel + 1, c :: rest =>
    match step (c :: rest) with
    | some bp => bp.1 :: scanCollectF step fuel bp.2
    | none => scanCollectF step fuel rest

/-- `regexp.FindAllStringSubmatch`, keeping the capture groups. -/
def scanCollect (step : Str → Option (Str × Str)) (s : Str) : List Str :=
  scanCollectF step s.length s

/-- The cleaned entry list of a block body (project.go lines 394-405):
split on newlines, trim each line, drop blank lines. -/
def cleanEntries (body : Str) : List Str :=
  ((splitLines body).map trimSpace).filter (fun x => !x.isEmpty)

/-- The merge loop of `addTarget` (project.go lines 407-419): append each
new file not already present, preserving order. -/
def mergeSources (existing newFiles : List Str) : List Str :=
  newFiles.foldl (fun acc f => if f ∈ acc then acc else acc ++ [f]) existing

def indentStr : Str := "    ".data

def sepStr : Str := "\n    ".data

/-- `newSourcesBlock` (project.go line 422). -/
def joinIndent (entries : List Str) : Str := indentStr ++ List.intercalate sepStr entries

/-- The text substituted for each match of the merge regex
(project.go line 425): group 1, the new sources block, group 3. -/
def mergedRepl (t : Str) (merged : List Str) : Str :=
  hdrOf t ++ joinIndent merged ++ [')']

/-- `targetAddition` (project.go lines 441-443). -/
def newTargetText (t : Str) (files : List Str) : Str :=
  "\nadd_executable(".data ++ t ++ "\n    ".data ++ List.intercalate sepStr files ++ "\n)\n".data

/-- The document-editing part of `addTarget` (project.go lines 370-455),
applied to the already-resolved source file list; `none` models the
"Error: No source files found for target" return that writes nothing. -/
def addTargetEdit (doc t : Str) (files : List Str) : Option Str :=
  if files.isEmpty then none
  else
    let expanded := (removeDuplicates files).map normalizeSeps
    if targetExistsIn t doc then
      match findBlockSplit t doc with
      | some x =>
        let merged := mergeSources (cleanEntries x.2.1) expanded
        some (scanReplace (tryBlockAt t) (mergedRepl t merged) doc)
      | none => some (doc ++ newTargetText t expanded)
    else some (doc ++ newTargetText t expanded)

/-- `addTarget` end to end (project.go lines 294-455): resolution followed
by the document edit; `none` means an error was reported and the on-disk
document was not rewritten. -/
def addTargetFull (fs : FSModel) (doc t : Str) (srcs : List Str) : Option Str :=
  (resolveSourceFiles fs t srcs).bind (fun files => addTargetEdit doc t files)

/-- The entry lists of all declaration blocks for target `t` that the merge
regex recognizes in a document (leftmost, non-overlapping), each cleaned
exactly as the merge path cleans them. -/
def targetBlocks (t : Str) (doc : Str) : List (List Str) :=
  (scanCollect (tryBlockAt t) doc).map cleanEntries

/-! ## addStandardConfig (project.go lines 458-529) -/

def marker1 : Str := "CMAKE_RUNTIME_OUTPUT_DIRECTORY".data

def marker2 : Str := "CMAKE_ARCHIVE_OUTPUT_DIRECTORY".data

/-- The literal head of the version-setting regex (project.go line 480). -/
def vLit : Str := "set(CMAKE_CXX_STANDARD ".data

/-- At-position match of the version regex: the literal, a greedy nonempty
digit run, a closing parenthesis.  Returns the digit run and the text
after the match. -/
def tryVersionAt (s : Str) : Option (Str × Str) :=
  if vLit.isPrefixOf s then
    let rest := s.drop vLit.length
    let ds := rest.takeWhile Char.isDigit
    let after := rest.drop ds.length
    if ds.isEmpty then none
    else if after.head? = some ')' then some (ds, after.tail)
    else none
  else none

/-- `re.MatchString` for the version regex (project.go line 481). -/
def versionMatchExists (doc : Str) : Bool :=
  scanAny (fun s => (tryVersionAt s).isSome) doc

/-- The replacement version statement (project.go line 483). -/
def versionStmt (v : Nat) : Str := vLit ++ natDigits v ++ [')']

/-- `re.ReplaceAllString` of the version regex (project.go line 483). -/
def replaceVersionAll (v : Nat) (doc : Str) : Str :=
  scanReplace tryVersionAt (versionStmt v) doc

/-- The digit groups of all version statements in a document. -/
def versionStmts (doc : Str) : List Str := scanCollect tryVersionAt doc

/-- `stdConfig` for a fresh version setting (project.go line 487). -/
def versionBlockText (v : Nat) : Str :=
  "\n# C++ Standard\n".data ++ versionStmt v ++ "\nset(CMAKE_CXX_STANDARD_REQUIRED ON)\n".data

/-- Characters allowed in a harvested target name:
the negated class of the regex at project.go line 496. -/
def execNameChar (c : Char) : Bool := !(c = ')' || c = ':' || goRegexSpace c)

def execLit : Str := "add_executable(".data

/-- At-position match of the target-name harvesting regex
(project.go line 496). -/
def tryExecNameAt (s : Str) : Option (Str × Str) :=
  if execLit.isPrefixOf s then
    let rest := s.drop execLit.length
    let name := rest.takeWhile execNameChar
    if name.isEmpty then none else some (name, rest.drop name.length)
  else none

/-- `re.FindAllStringSubmatch` target-name harvest (project.go lines 496-504). -/
def execNames (doc : Str) : List Str := scanCollect tryExecNameAt doc

def spaceJoin (l : List Str) : Str := List.intercalate [' '] l

/-- The appended install block (project.go lines 506-517), harvested from
the document as it stands after the version edit. -/
def installBlockText (d : Str) : Str :=
  let names := execNames d
  "\n\n# Add install target\n".data ++
    (if names.isEmpty then "# No targets found to install\n".data
     else "install(TARGETS ".data ++ spaceJoin names ++ " DESTINATION bin)\n".data)

/-- The document transformation of `addStandardConfig` (project.go
lines 458-529).  `cxxStd = 0` models the no-argument invocation (main.go
passes 0 then). -/
def addStandardConfig (cxxStd : Nat) (doc : Str) : Str :=
  let stdConfigAdded := occurs marker1 doc || occurs marker2 doc
  let d1 :=
    if 0 < cxxStd then
      if versionMatchExists doc then replaceVersionAll cxxStd doc
      else doc ++ versionBlockText cxxStd
    else doc
  if stdConfigAdded then d1 else d1 ++ installBlockText d1

/-! ## initProject (project.go lines 72-118) and helpers -/

def cmakePath : Str := "CMakeLists.txt".data

/-- `filepath.Base`. -/
def baseName (p : Str) : Str :=
  if p.isEmpty then ".".data
  else
    let q := (p.reverse.dropWhile (fun c => c = '/')).reverse
    if q.isEmpty then "/".data
    else (q.reverse.takeWhile (fun c => c != '/')).reverse

/-- The skeleton document written by `initProject` (project.go lines 88-107). -/
def skeletonDoc (name : Str) : Str :=
  "cmake_minimum_required(VERSION 3.10)\nproject(".data ++ name ++
    ")\n\nset(CMAKE_CXX_STANDARD 14)\nset(CMAKE_CXX_STANDARD_REQUIRED ON)\n\n# Compiler options\nset(CMAKE_CXX_FLAGS \"$\x7bCMAKE_CXX_FLAGS\x7d -Wall -Wextra\")\n\n# Output directories\nset(CMAKE_RUNTIME_OUTPUT_DIRECTORY $\x7bCMAKE_BINARY_DIR\x7d/bin)\nset(CMAKE_ARCHIVE_OUTPUT_DIRECTORY $\x7bCMAKE_BINARY_DIR\x7d/lib)\nset(CMAKE_LIBRARY_OUTPUT_DIRECTORY $\x7bCMAKE_BINARY_DIR\x7d/lib)\n\n# Include directories\ninclude_directories($\x7bCMAKE_CURRENT_SOURCE_DIR\x7d/include)\n\n# Enable testing\nenable_testing()\n".data

/-- A recorded filesystem effect. -/
inductive FsAction where
  | mkdirAct (p : Str)
  | writeAct (p : Str) (content : Str)
  deriving DecidableEq

/-- The ambient process environment: `os.UserHomeDir` (none = error),
`os.Getwd`, and the filesystem. -/
structure Env where
  userHome : Option Str
  cwd : Str
  fs : FSModel

/-- The starter source written by `newFirstProject` (project.go lines 9-16). -/
def helloSource : Str :=
  "\n#include <iostream>\n\nint main() \x7b\n    std::cout << \"Hello, World!\" << std::endl;\n    return 0;\n\x7d\n".data

/-- Record a path as now existing as a file. -/
def withFile (fs : FSModel) (p : Str) : FSModel :=
  { fs with stat := fun q => if q = p then some false else fs.stat q }

/-- `newFirstProject` (project.go lines 8-32): create `src` if absent,
write the starter source if absent; returns the recorded actions and the
updated filesystem. -/
def newFirstProjectActs (fs : FSModel) : List FsAction × FSModel :=
  let acts1 := if fs.stat "src".data = none then [FsAction.mkdirAct "src".data] else []
  if fs.stat "src/main.cc".data = none then
    (acts1 ++ [FsAction.writeAct "src/main.cc".data helloSource],
      withFile fs "src/main.cc".data)
  else (acts1, fs)

/-- Outcome of `initProject`: the two guard rejections, or success with the
recorded filesystem actions. -/
inductive InitOutcome where
  | errHomeDir
  | errExists
  | ok (writes : List FsAction)

/-- `initProject` (project.go lines 72-118): home-directory guard, then
existing-document guard, then the skeleton write followed by
`newFirstProject` and a first `addTarget` on the fresh document. -/
def initProject (env : Env) : InitOutcome :=
  if env.userHome = some env.cwd then .errHomeDir
  else if fileExists env.fs cmakePath then .errExists
  else
    let name := baseName env.cwd
    let doc0 := skeletonDoc name
    let p := newFirstProjectActs (withFile env.fs cmakePath)
    let addW :=
      match addTargetFull p.2 doc0 name ["src/main.cc".data] with
      | some d2 => [FsAction.writeAct cmakePath d2]
      | none => []
    .ok ([FsAction.writeAct cmakePath doc0] ++ p.1 ++ addW)

/-- The filesystem actions an outcome performs. -/
def initWrites : InitOutcome → List FsAction
  | .ok ws => ws
  | _ => []

/-- Whether the outcome is a reported error. -/
def initErrorReported : InitOutcome → Bool
  | .ok _ => false
  | _ => true

/-! ## initSubProject: the parent-document update (project.go lines 201-238) -/

def addSubdirLine (c : Str) : Str := "add_subdirectory(".data ++ c ++ [')']

def linkLine (pName c : Str) : Str :=
  "target_link_libraries(".data ++ pName ++ " PRIVATE ".data ++ c ++ [')']

def subdirAppendix (c : Str) : Str :=
  "\n# Include the ".data ++ c ++ " sub-project\n".data ++ addSubdirLine c ++ ['\n']

def linkAppendix (pName c : Str) : Str :=
  "\n# Link the ".data ++ c ++ " sub-project\n".data ++ linkLine pName c ++ ['\n']

/-- The parent-document transformation of `initSubProject` (project.go
lines 210-238): append the subdirectory-inclusion block if the inclusion
statement is absent, then append the link block if the link statement is
absent from the updated content. -/
def updateParent (pName c doc : Str) : Str :=
  let d1 := if occurs (addSubdirLine c) doc then doc else doc ++ subdirAppendix c
  if occurs (linkLine pName c) d1 then d1 else d1 ++ linkAppendix pName c

/-- `initSubProject` restricted to its effect on the parent document
(project.go lines 121-133 guards, lines 201-238 update); `none` models
the early error returns. -/
def initSubProjectParent (env : Env) (subDirName parentDoc : Str) : Option Str :=
  if (trimSpace subDirName).isEmpty then none
  else if !fileExists env.fs cmakePath then none
  else some (updateParent (baseName env.cwd) subDirName parentDoc)

/-! ## Side conditions used in theorem statements -/

/-- Characters of ordinary target / project / subdirectory names. -/
def identChar (c : Char) : Bool := c.isAlpha || c.isDigit || c = '_' || c = '-'

def validName (t : Str) : Bool := !t.isEmpty && t.all identChar

/-- Characters of ordinary forward-slash file paths. -/
def pathChar (c : Char) : Bool :=
  c.isAlpha || c.isDigit || c = '_' || c = '-' || c = '.' || c = '/'

def validPath (p : Str) : Bool := !p.isEmpty && p.all pathChar

/-- The two concrete file paths of the merge-union scenario. -/
def aPath : Str := "a.cpp".data

def bPath : Str := "b.cpp".data

/-- A simple concrete filesystem containing exactly the given files. -/
def fsOf (files : List Str) : FSModel where
  stat := fun p => if p ∈ files then some false else none
  entries := fun _ => []
  glob := fun _ => none

/-- Environment whose current directory is the user home directory. -/
def envHomeW : Env := { userHome := some "/home/u".data, cwd := "/home/u".data, fs := fsOf [] }

/-- Environment whose working directory already holds a document. -/
def envExistsW : Env := { userHome := none, cwd := "/w/proj".data, fs := fsOf [cmakePath] }

/-- The two-version-statement document of the C5 counterexample. -/
def doc5cex : Str :=
  "set(CMAKE_CXX_STANDARD 11)\nset(CMAKE_CXX_STANDARD 14)\nset(CMAKE_RUNTIME_OUTPUT_DIRECTORY x)\n".data

/-- A path written with a backslash separator and its forward-slash twin. -/
def bsPath : Str := "a\\b.cpp".data

def fsPath : Str := "a/b.cpp".data

/-- A document holding two declaration blocks for the same target `app`. -/
def doc2cex : Str :=
  "add_executable(app\n    x.cpp\n)\nadd_executable(app\n    y.cpp\n)\n".data

/-- No occurrence of `pat` straddles the boundary between `X` and `Y` in
`X ++ Y`: there is no split of `pat` into a nonempty suffix of `X` and a
nonempty prefix of `Y`. -/
def NoSpill (pat X Y : Str) : Prop :=
  ∀ p1 p2, pat = p1 ++ p2 → p1 ≠ [] → p2 ≠ [] → p1 <:+ X → p2 <+: Y → False

/-- No nonempty proper prefix of `h` is also a suffix of `h`. -/
def BorderFree (h : Str) : Prop :=
  ∀ r, r <+: h → r <:+ h → r ≠ [] → r = h

/-- A string is unchanged by `trimSpace`: nonempty with non-whitespace
first and last characters. -/
def trimFixed (e : Str) : Bool :=
  !e.isEmpty && !goSpace (e.headD ' ') && !goSpace (e.getLastD ' ')

/-! ## Substring machinery -/

theorem occurs_true_iff (pat s : Str) : occurs pat s = true ↔ pat <:+: s := by
  induction s with
  | nil =>
    simp only [occurs, List.isEmpty_iff]
    constructor
    · rintro rfl; exact List.infix_refl _
    · intro h
      have := h.length_le
      exact List.eq_nil_of_length_eq_zero (Nat.le_zero.mp (by simpa using this))
  | cons c rest ih =>
    simp only [occurs, Bool.or_eq_true, List.isPrefixOf_iff_prefix, ih,
      List.infix_cons_iff]

theorem occurs_eq_false_iff (pat s : Str) : occurs pat s = false ↔ ¬ pat <:+: s := by
  rw [← occurs_true_iff]
  cases occurs pat s <;> simp

theorem occurs_sandwich (pat X Y : Str) : occurs pat (X ++ pat ++ Y) = true :=
  (occurs_true_iff _ _).mpr (List.infix_append _ _ _)

theorem prefix_of_append_of_le {pat A B : Str} (h : pat <+: A ++ B)
    (hl : pat.length ≤ A.length) : pat <+: A := by
  rw [List.prefix_iff_eq_take] at h ⊢
  rwa [List.take_append_of_le_length hl] at h

theorem infix_append_cases {pat X Y : Str} (h : pat <:+: X ++ Y) :
    pat <:+: X ∨ pat <:+: Y ∨
      ∃ p1 p2, pat = p1 ++ p2 ∧ p1 ≠ [] ∧ p2 ≠ [] ∧ p1 <:+ X ∧ p2 <+: Y := by
  obtain ⟨u, v, huv⟩ := h
  by_cases hc1 : u.length + pat.length ≤ X.length
  · left
    have hpre : u ++ pat <+: X := by
      have h1 : u ++ pat <+: X ++ Y := ⟨v, by simpa [List.append_assoc] using huv⟩
      exact prefix_of_append_of_le h1 (by simpa using hc1)
    exact (List.infix_append' u pat []).trans (by simpa using hpre.isInfix)
  · by_cases hc2 : X.length ≤ u.length
    · right; left
      have hY : u.drop X.length ++ (pat ++ v) = Y := by
        have h0 := congrArg (List.drop X.length) huv
        rwa [show u ++ pat ++ v = u ++ (pat ++ v) by simp,
          List.drop_append_of_le_length hc2, List.drop_left] at h0
      exact ⟨_, v, by rw [← hY, List.append_assoc]⟩
    · right; right
      push_neg at hc1 hc2
      have hlen1 : 0 < X.length - u.length := by omega
      have hlen2 : X.length - u.length < pat.length := by omega
      refine ⟨pat.take (X.length - u.length), pat.drop (X.length - u.length),
        (List.take_append_drop _ _).symm, ?_, ?_, ?_, ?_⟩
      · intro hnil
        have := congrArg List.length hnil
        simp only [List.length_take, List.length_nil] at this
        omega
      · intro hnil
        have := congrArg List.length hnil
        simp only [List.length_drop, List.length_nil] at this
        omega
      · refine ⟨u, ?_⟩
        have h0 := congrArg (List.take X.length) huv
        rwa [List.take_left, show u ++ pat ++ v = u ++ (pat ++ v) by simp,
          List.take_append_eq_append_take,
          List.take_of_length_le (le_of_lt hc2),
          List.take_append_eq_append_take,
          show X.length - u.length - pat.length = 0 by omega,
          List.take_zero, List.append_nil] at h0
      · have h0 := congrArg (List.drop X.length) huv
        rw [List.drop_left, show u ++ pat ++ v = u ++ (pat ++ v) by simp,
          List.drop_append_eq_append_drop,
          List.drop_eq_nil_of_le (le_of_lt hc2),
          List.drop_append_of_le_length (le_of_lt hlen2), List.nil_append] at h0
        exact ⟨v, by rw [← h0]⟩

theorem not_infix_append {pat X Y : Str} (hX : ¬ pat <:+: X) (hY : ¬ pat <:+: Y)
    (hs : NoSpill pat X Y) : ¬ pat <:+: X ++ Y := fun h => by
  rcases infix_append_cases h with h | h | ⟨p1, p2, he, h1, h2, hsuf, hpre⟩
  exacts [hX h, hY h, hs p1 p2 he h1 h2 hsuf hpre]

theorem not_infix_of_mem {pat s : Str} {a : Char} (ha : a ∈ pat) (hs : a ∉ s) :
    ¬ pat <:+: s := fun h => hs (h.sublist.subset ha)

theorem not_infix_of_length {pat s : Str} (h : s.length < pat.length) :
    ¬ pat <:+: s := fun hc => by
  have := hc.length_le
  omega

theorem noStart_of {pat X Y : Str} (hX : ¬ pat <:+: X) (hs : NoSpill pat X Y) :
    ∀ X2, X2 <:+ X → X2 ≠ [] → ¬ pat <+: X2 ++ Y := by
  intro X2 hsuf hne hpre
  by_cases hlen : pat.length ≤ X2.length
  · exact hX ((prefix_of_append_of_le hpre hlen).isInfix.trans hsuf.isInfix)
  · push_neg at hlen
    have hX2 : X2 = pat.take X2.length := by
      obtain ⟨rest, hrest⟩ := hpre
      have h0 := congrArg (List.take X2.length) hrest
      rw [List.take_append_of_le_length (le_of_lt hlen), List.take_left] at h0
      exact h0.symm
    have hsplit : pat = X2 ++ pat.drop X2.length := by
      conv_lhs => rw [← List.take_append_drop X2.length pat, ← hX2]
    refine hs X2 (pat.drop X2.length) hsplit hne ?_ hsuf ?_
    · intro hnil
      have := congrArg List.length hnil
      simp only [List.length_drop, List.length_nil] at this
      omega
    · obtain ⟨rest, hrest⟩ := hpre
      rw [hsplit, List.append_assoc] at hrest
      exact ⟨rest, (List.append_cancel_left hrest)⟩

theorem noSpill_head {pat X Y : Str} (c : Char) (Y2 : Str) (hY : Y = c :: Y2)
    (hc : c ∉ pat) : NoSpill pat X Y := by
  intro p1 p2 he h1 h2 _ hpre
  subst hY
  cases p2 with
  | nil => exact h2 rfl
  | cons d p2t =>
    obtain ⟨hd, -⟩ := List.cons_prefix_cons.mp hpre
    subst hd
    exact hc (he ▸ List.mem_append_right p1 (List.mem_cons_self _ _))

theorem noSpill_border {pat X Z : Str} (hb : BorderFree pat) :
    NoSpill pat X (pat ++ Z) := by
  intro p1 p2 he h1 h2 _ hpre
  have hlen : p2.length < pat.length := by
    have := congrArg List.length he
    simp only [List.length_append] at this
    cases p1 with
    | nil => exact absurd rfl h1
    | cons x xs => simp only [List.length_cons] at this; omega
  have hp2pat : p2 <+: pat := prefix_of_append_of_le hpre (le_of_lt hlen)
  have hp2suf : p2 <:+ pat := ⟨p1, he.symm⟩
  have hcontra := hb p2 hp2pat hp2suf h2
  rw [hcontra] at hlen
  omega

theorem borderFree_snoc {W : Str} {z : Char} (hz : z ∉ W) : BorderFree (W ++ [z]) := by
  intro r hpre hsuf hne
  have hrlast : r.getLast hne = z := by
    obtain ⟨u, hu⟩ := hsuf
    have h1 : (u ++ r).getLast? = some z := by
      rw [hu]
      exact List.getLast?_concat W
    rw [List.getLast?_append_of_ne_nil u hne, List.getLast?_eq_getLast r hne] at h1
    exact Option.some_injective _ h1
  by_cases hlen : r.length ≤ W.length
  · exfalso
    have hrW : r <+: W := prefix_of_append_of_le hpre hlen
    exact hz (hrW.sublist.subset (hrlast ▸ List.getLast_mem hne))
  · apply hpre.eq_of_length
    have := hpre.length_le
    simp only [List.length_append, List.length_cons, List.length_nil] at this ⊢
    omega

theorem spill_of_prefix_append {pat X2 Y : Str} (hpre : pat <+: X2 ++ Y)
    (hlen : X2.length < pat.length) :
    pat = X2 ++ pat.drop X2.length ∧ pat.drop X2.length <+: Y ∧ pat.drop X2.length ≠ [] := by
  have hX2 : X2 = pat.take X2.length := by
    obtain ⟨rest, hrest⟩ := hpre
    have h0 := congrArg (List.take X2.length) hrest
    rw [List.take_append_of_le_length (le_of_lt hlen), List.take_left] at h0
    exact h0.symm
  have hsplit : pat = X2 ++ pat.drop X2.length := by
    conv_lhs => rw [← List.take_append_drop X2.length pat, ← hX2]
  refine ⟨hsplit, ?_, ?_⟩
  · obtain ⟨rest, hrest⟩ := hpre
    rw [hsplit, List.append_assoc] at hrest
    exact ⟨rest, List.append_cancel_left hrest⟩
  · intro hnil
    have := congrArg List.length hnil
    simp only [List.length_drop, List.length_nil] at this
    omega

/-! ## Counting lemmas -/

theorem countOcc_eq_zero_of_absent {pat s : Str} (h : ¬ pat <:+: s) :
    countOcc pat s = 0 := by
  induction s with
  | nil => rfl
  | cons c rest ih =>
    simp only [countOcc]
    rw [if_neg, ih (fun hc => h (List.infix_cons hc))]
    intro hc
    exact h (List.isPrefixOf_iff_prefix.mp hc).isInfix

theorem countOcc_eq_zero_of_lt {pat s : Str} (h : s.length < pat.length) :
    countOcc pat s = 0 :=
  countOcc_eq_zero_of_absent (not_infix_of_length h)

theorem countOcc_self {pat : Str} (h : pat ≠ []) : countOcc pat pat = 1 := by
  cases pat with
  | nil => exact absurd rfl h
  | cons c rest =>
    simp only [countOcc]
    rw [if_pos (List.isPrefixOf_iff_prefix.mpr (List.prefix_refl _)),
      countOcc_eq_zero_of_lt (by simp)]

theorem countOcc_append {pat X Y : Str} (hs : NoSpill pat X Y) :
    countOcc pat (X ++ Y) = countOcc pat X + countOcc pat Y := by
  induction X with
  | nil => simp [countOcc]
  | cons x X ih =>
    have ih2 := ih (fun p1 p2 he h1 h2 hsuf hpre =>
      hs p1 p2 he h1 h2 (hsuf.trans (List.suffix_cons x X)) hpre)
    have hif : (if pat.isPrefixOf (x :: (X ++ Y)) then 1 else 0) =
        (if pat.isPrefixOf (x :: X) then (1 : Nat) else 0) := by
      by_cases h1 : pat <+: x :: X
      · rw [if_pos (List.isPrefixOf_iff_prefix.mpr h1),
          if_pos (List.isPrefixOf_iff_prefix.mpr
            (h1.trans (by exact List.prefix_append (x :: X) Y)))]
      · rw [if_neg (fun hc => h1 (List.isPrefixOf_iff_prefix.mp hc)), if_neg]
        intro hc
        have hc2 : pat <+: (x :: X) ++ Y := List.isPrefixOf_iff_prefix.mp hc
        by_cases hl : pat.length ≤ (x :: X).length
        · exact h1 (prefix_of_append_of_le hc2 hl)
        · push_neg at hl
          obtain ⟨hsp, hpre2, hne2⟩ := spill_of_prefix_append hc2 hl
          exact hs (x :: X) _ hsp (by simp) hne2 (List.suffix_refl _) hpre2
    show (if pat.isPrefixOf (x :: (X ++ Y)) then 1 else 0) + countOcc pat (X ++ Y) =
      ((if pat.isPrefixOf (x :: X) then 1 else 0) + countOcc pat X) + countOcc pat Y
    rw [ih2, hif]
    omega

/-! ## Character-class facts -/

theorem identChar_not_special {c : Char} (h : identChar c = true) :
    ¬(c = '\n' ∨ c = '(' ∨ c = ')' ∨ c = ':' ∨ c = ' ' ∨ c = '\t' ∨ c = '\x0b' ∨
      c = '\x0c' ∨ c = '\r' ∨ c = '\\' ∨ c = '#') := by
  intro hc
  rcases hc with rfl|rfl|rfl|rfl|rfl|rfl|rfl|rfl|rfl|rfl|rfl <;> exact absurd h (by decide)

theorem pathChar_not_special {c : Char} (h : pathChar c = true) :
    ¬(c = '\n' ∨ c = '(' ∨ c = ')' ∨ c = ':' ∨ c = ' ' ∨ c = '\t' ∨ c = '\x0b' ∨
      c = '\x0c' ∨ c = '\r' ∨ c = '\\' ∨ c = '#') := by
  intro hc
  rcases hc with rfl|rfl|rfl|rfl|rfl|rfl|rfl|rfl|rfl|rfl|rfl <;> exact absurd h (by decide)

theorem validName_mem {t : Str} (h : validName t = true) {c : Char} (hc : c ∈ t) :
    identChar c = true := by
  simp only [validName, Bool.and_eq_true, List.all_eq_true] at h
  exact h.2 c hc

theorem validName_ne_nil {t : Str} (h : validName t = true) : t ≠ [] := by
  intro hc
  subst hc
  simp [validName] at h

theorem validPath_mem {p : Str} (h : validPath p = true) {c : Char} (hc : c ∈ p) :
    pathChar c = true := by
  simp only [validPath, Bool.and_eq_true, List.all_eq_true] at h
  exact h.2 c hc

theorem validPath_ne_nil {p : Str} (h : validPath p = true) : p ≠ [] := by
  intro hc
  subst hc
  simp [validPath] at h

theorem nl_not_mem_declOpen {t : Str} (hv : validName t = true) : '\n' ∉ declOpen t := by
  intro hmem
  rcases List.mem_append.mp hmem with h | h
  · revert h; decide
  · exact (identChar_not_special (validName_mem hv h)) (Or.inl rfl)

theorem borderFree_hdr {t : Str} (hv : validName t = true) : BorderFree (hdrOf t) :=
  borderFree_snoc (nl_not_mem_declOpen hv)

/-! ## Scanner decomposition lemmas -/

theorem drop_length_takeWhile (p : Char → Bool) (rest : Str) :
    rest.drop (rest.takeWhile p).length = rest.dropWhile p := by
  induction rest with
  | nil => rfl
  | cons c l ih =>
    by_cases hc : p c
    · simp [List.takeWhile_cons, List.dropWhile_cons, hc, ih]
    · simp [List.takeWhile_cons, List.dropWhile_cons, hc]

theorem takeWhile_append_stop {p : Char → Bool} {xs : Str} {y : Char} {ys : Str}
    (hxs : ∀ a ∈ xs, p a = true) (hy : p y = false) :
    List.takeWhile p (xs ++ y :: ys) = xs := by
  induction xs with
  | nil => simp [List.takeWhile_cons, hy]
  | cons x xs ih =>
    rw [List.cons_append, List.takeWhile_cons, if_pos (hxs x (List.mem_cons_self x xs)),
      ih (fun a ha => hxs a (List.mem_cons_of_mem x ha))]

theorem prefix_split {pat s : Str} (h : pat <+: s) : s = pat ++ s.drop pat.length := by
  conv_lhs => rw [← List.take_append_drop pat.length s]
  rw [← List.prefix_iff_eq_take.mp h]

theorem tryBlockAt_eq_some {t s body post : Str}
    (h : tryBlockAt t s = some (body, post)) :
    s = hdrOf t ++ body ++ ')' :: post ∧ body ≠ [] ∧ ∀ a ∈ body, a ≠ ')' := by
  simp only [tryBlockAt] at h
  set rest := s.drop (hdrOf t).length with hrestdef
  set body0 := rest.takeWhile (fun c => c != ')') with hbody0def
  set after := rest.drop body0.length with hafterdef
  split_ifs at h with hp he hh <;> try exact Option.noConfusion h
  simp only [Option.some.injEq, Prod.mk.injEq] at h
  obtain ⟨rfl, rfl⟩ := h
  have hafter : ')' :: after.tail = after := List.cons_head?_tail (Option.mem_def.mpr hh)
  have hdw : rest.dropWhile (fun c => c != ')') = ')' :: after.tail := by
    rw [← drop_length_takeWhile (fun c => c != ')') rest, ← hbody0def, ← hafterdef]
    exact hafter.symm
  have hrest2 : rest = body0 ++ ')' :: after.tail := by
    conv_lhs => rw [← List.takeWhile_append_dropWhile (fun c => c != ')') rest]
    rw [← hbody0def, hdw]
  refine ⟨?_, ?_, ?_⟩
  · have hs2 : s = hdrOf t ++ rest :=
      hrestdef ▸ prefix_split (List.isPrefixOf_iff_prefix.mp hp)
    rw [hs2, hrest2, List.append_assoc]
  · simpa [List.isEmpty_iff] using he
  · intro a ha
    have := List.mem_takeWhile_imp (hbody0def ▸ ha)
    simpa using this

theorem tryBlockAt_shrink (t : Str) :
    ∀ s b p, tryBlockAt t s = some (b, p) → p.length < s.length := by
  intro s b p h
  obtain ⟨hs, -, -⟩ := tryBlockAt_eq_some h
  subst hs
  simp only [hdrOf, List.length_append, List.length_cons, List.length_nil]
  omega

theorem tryVersionAt_eq_some {s ds post : Str}
    (h : tryVersionAt s = some (ds, post)) :
    s = vLit ++ ds ++ ')' :: post ∧ ds ≠ [] ∧ ∀ a ∈ ds, a.isDigit = true := by
  simp only [tryVersionAt] at h
  set rest := s.drop vLit.length with hrestdef
  set ds0 := rest.takeWhile Char.isDigit with hds0def
  set after := rest.drop ds0.length with hafterdef
  split_ifs at h with hp he hh <;> try exact Option.noConfusion h
  simp only [Option.some.injEq, Prod.mk.injEq] at h
  obtain ⟨rfl, rfl⟩ := h
  have hafter : ')' :: after.tail = after := List.cons_head?_tail (Option.mem_def.mpr hh)
  have hdw : rest.dropWhile Char.isDigit = ')' :: after.tail := by
    rw [← drop_length_takeWhile Char.isDigit rest, ← hds0def, ← hafterdef]
    exact hafter.symm
  have hrest2 : rest = ds0 ++ ')' :: after.tail := by
    conv_lhs => rw [← List.takeWhile_append_dropWhile Char.isDigit rest]
    rw [← hds0def, hdw]
  refine ⟨?_, ?_, ?_⟩
  · have hs2 : s = vLit ++ rest :=
      hrestdef ▸ prefix_split (List.isPrefixOf_iff_prefix.mp hp)
    rw [hs2, hrest2, List.append_assoc]
  · simpa [List.isEmpty_iff] using he
  · intro a ha
    exact List.mem_takeWhile_imp (hds0def ▸ ha)

theorem tryVersionAt_shrink :
    ∀ s b p, tryVersionAt s = some (b, p) → p.length < s.length := by
  intro s b p h
  obtain ⟨hs, -, -⟩ := tryVersionAt_eq_some h
  subst hs
  simp only [List.length_append, List.length_cons]
  omega

theorem tryExecNameAt_eq_some {s name post : Str}
    (h : tryExecNameAt s = some (name, post)) :
    s = execLit ++ name ++ post ∧ name ≠ [] ∧ ∀ a ∈ name, execNameChar a = true := by
  simp only [tryExecNameAt] at h
  set rest := s.drop execLit.length with hrestdef
  set name0 := rest.takeWhile execNameChar with hname0def
  split_ifs at h with hp he <;> try exact Option.noConfusion h
  simp only [Option.some.injEq, Prod.mk.injEq] at h
  obtain ⟨rfl, rfl⟩ := h
  have hrest2 : rest = name0 ++ rest.drop name0.length := by
    conv_lhs => rw [← List.takeWhile_append_dropWhile execNameChar rest]
    rw [← hname0def, ← drop_length_takeWhile execNameChar rest, ← hname0def]
  refine ⟨?_, ?_, ?_⟩
  · have hs2 : s = execLit ++ rest :=
      hrestdef ▸ prefix_split (List.isPrefixOf_iff_prefix.mp hp)
    rw [List.append_assoc, hs2]
    exact congrArg (fun z => execLit ++ z) hrest2
  · simpa [List.isEmpty_iff] using he
  · intro a ha
    exact List.mem_takeWhile_imp (hname0def ▸ ha)

theorem tryExecNameAt_shrink :
    ∀ s b p, tryExecNameAt s = some (b, p) → p.length < s.length := by
  intro s b p h
  obtain ⟨hs, hb, -⟩ := tryExecNameAt_eq_some h
  subst hs
  have hl : 0 < b.length := List.length_pos.mpr hb
  simp only [List.length_append]
  omega

theorem tryBlockAt_none_of_misfit {t : Str} {s : Str} (h : ¬ hdrOf t <+: s) :
    tryBlockAt t s = none := by
  simp only [tryBlockAt]
  rw [if_neg (fun hc => h (List.isPrefixOf_iff_prefix.mp hc))]

theorem tryVersionAt_none_of_misfit {s : Str} (h : ¬ vLit <+: s) :
    tryVersionAt s = none := by
  simp only [tryVersionAt]
  rw [if_neg (fun hc => h (List.isPrefixOf_iff_prefix.mp hc))]

theorem tryExecNameAt_none_of_misfit {s : Str} (h : ¬ execLit <+: s) :
    tryExecNameAt s = none := by
  simp only [tryExecNameAt]
  rw [if_neg (fun hc => h (List.isPrefixOf_iff_prefix.mp hc))]

theorem tryBlockAt_front (t : Str) (body post : Str) (hne : body ≠ [])
    (hb : ∀ a ∈ body, a ≠ ')') :
    tryBlockAt t (hdrOf t ++ (body ++ ')' :: post)) = some (body, post) := by
  have hpre : (hdrOf t).isPrefixOf (hdrOf t ++ (body ++ ')' :: post)) = true :=
    List.isPrefixOf_iff_prefix.mpr (List.prefix_append _ _)
  have htw : (body ++ ')' :: post).takeWhile (fun c => c != ')') = body :=
    takeWhile_append_stop (fun a ha => by simpa using hb a ha) (by decide)
  simp only [tryBlockAt, hpre, if_true, List.drop_left, htw]
  simp [List.isEmpty_iff, hne]

theorem tryVersionAt_front (ds post : Str) (hne : ds ≠ [])
    (hd : ∀ a ∈ ds, a.isDigit = true) :
    tryVersionAt (vLit ++ (ds ++ ')' :: post)) = some (ds, post) := by
  have hpre : vLit.isPrefixOf (vLit ++ (ds ++ ')' :: post)) = true :=
    List.isPrefixOf_iff_prefix.mpr (List.prefix_append _ _)
  have htw : (ds ++ ')' :: post).takeWhile Char.isDigit = ds :=
    takeWhile_append_stop hd (by decide)
  simp only [tryVersionAt, hpre, if_true, List.drop_left, htw]
  simp [List.isEmpty_iff, hne]

/-! ## Fuelled scanner interface -/

theorem scanReplaceF_cons_none {step : Str → Option (Str × Str)} {repl : Str}
    {fuel : Nat} {c : Char} {rest : Str} (h : step (c :: rest) = none) :
    scanReplaceF step repl (fuel + 1) (c :: rest) =
      c :: scanReplaceF step repl fuel rest := by
  simp only [scanReplaceF, h]

theorem scanReplaceF_cons_some {step : Str → Option (Str × Str)} {repl : Str}
    {fuel : Nat} {c : Char} {rest b p : Str} (h : step (c :: rest) = some (b, p)) :
    scanReplaceF step repl (fuel + 1) (c :: rest) =
      repl ++ scanReplaceF step repl fuel p := by
  simp only [scanReplaceF, h]

theorem scanReplaceF_fuel {step : Str → Option (Str × Str)} {repl : Str}
    (hstep : ∀ s b p, step s = some (b, p) → p.length < s.length) :
    ∀ f1 f2 s, s.length ≤ f1 → s.length ≤ f2 →
      scanReplaceF step repl f1 s = scanReplaceF step repl f2 s := by
  intro f1
  induction f1 with
  | zero =>
    intro f2 s h1 _
    have hs : s = [] := List.eq_nil_of_length_eq_zero (Nat.le_zero.mp h1)
    subst hs
    cases f2 <;> rfl
  | succ f1 ih =>
    intro f2 s h1 h2
    cases s with
    | nil => cases f2 <;> rfl
    | cons c rest =>
      cases f2 with
      | zero => simp at h2
      | succ f2 =>
        cases hs : step (c :: rest) with
        | none =>
          rw [scanReplaceF_cons_none hs, scanReplaceF_cons_none hs,
            ih f2 rest (by simp at h1; omega) (by simp at h2; omega)]
        | some bp =>
          have hlt := hstep _ bp.1 bp.2 (by rw [hs])
          rw [scanReplaceF_cons_some (b := bp.1) (p := bp.2) (by rw [hs]),
            scanReplaceF_cons_some (b := bp.1) (p := bp.2) (by rw [hs]),
            ih f2 bp.2 (by simp at h1 hlt ⊢; omega) (by simp at h2 hlt ⊢; omega)]

theorem scanReplace_nil {step : Str → Option (Str × Str)} {repl : Str} :
    scanReplace step repl [] = [] := rfl

theorem scanReplace_cons_none {step : Str → Option (Str × Str)} {repl : Str}
    {c : Char} {rest : Str} (h : step (c :: rest) = none) :
    scanReplace step repl (c :: rest) = c :: scanReplace step repl rest := by
  simp only [scanReplace, List.length_cons]
  exact scanReplaceF_cons_none h

theorem scanReplace_cons_some {step : Str → Option (Str × Str)} {repl : Str}
    {c : Char} {rest b p : Str}
    (hstep : ∀ s b p, step s = some (b, p) → p.length < s.length)
    (h : step (c :: rest) = some (b, p)) :
    scanReplace step repl (c :: rest) = repl ++ scanReplace step repl p := by
  simp only [scanReplace, List.length_cons]
  rw [scanReplaceF_cons_some h]
  congr 1
  exact scanReplaceF_fuel hstep rest.length p.length p
    (by have := hstep _ _ _ h; simp at this; omega) le_rfl

theorem scanReplace_append {step : Str → Option (Str × Str)} {repl : Str} (A B : Str)
    (hA : ∀ A2, A2 <:+ A → A2 ≠ [] → step (A2 ++ B) = none) :
    scanReplace step repl (A ++ B) = A ++ scanReplace step repl B := by
  induction A with
  | nil => simp
  | cons c A ih =>
    rw [List.cons_append,
      scanReplace_cons_none (by simpa using hA (c :: A) (List.suffix_refl _) (by simp)),
      ih (fun A2 hs hn => hA A2 (hs.trans (List.suffix_cons c A)) hn), List.cons_append]

theorem scanReplace_id {step : Str → Option (Str × Str)} {repl : Str} (s : Str)
    (h : ∀ s2, s2 <:+ s → s2 ≠ [] → step s2 = none) :
    scanReplace step repl s = s := by
  induction s with
  | nil => rfl
  | cons c rest ih =>
    rw [scanReplace_cons_none (h _ (List.suffix_refl _) (by simp)),
      ih (fun s2 hs hn => h s2 (hs.trans (List.suffix_cons c rest)) hn)]

theorem scanCollectF_cons_none {step : Str → Option (Str × Str)}
    {fuel : Nat} {c : Char} {rest : Str} (h : step (c :: rest) = none) :
    scanCollectF step (fuel + 1) (c :: rest) = scanCollectF step fuel rest := by
  simp only [scanCollectF, h]

theorem scanCollectF_cons_some {step : Str → Option (Str × Str)}
    {fuel : Nat} {c : Char} {rest b p : Str} (h : step (c :: rest) = some (b, p)) :
    scanCollectF step (fuel + 1) (c :: rest) = b :: scanCollectF step fuel p := by
  simp only [scanCollectF, h]

theorem scanCollectF_fuel {step : Str → Option (Str × Str)}
    (hstep : ∀ s b p, step s = some (b, p) → p.length < s.length) :
    ∀ f1 f2 s, s.length ≤ f1 → s.length ≤ f2 →
      scanCollectF step f1 s = scanCollectF step f2 s := by
  intro f1
  induction f1 with
  | zero =>
    intro f2 s h1 _
    have hs : s = [] := List.eq_nil_of_length_eq_zero (Nat.le_zero.mp h1)
    subst hs
    cases f2 <;> rfl
  | succ f1 ih =>
    intro f2 s h1 h2
    cases s with
    | nil => cases f2 <;> rfl
    | cons c rest =>
      cases f2 with
      | zero => simp at h2
      | succ f2 =>
        cases hs : step (c :: rest) with
        | none =>
          rw [scanCollectF_cons_none hs, scanCollectF_cons_none hs,
            ih f2 rest (by simp at h1; omega) (by simp at h2; omega)]
        | some bp =>
          have hlt := hstep _ bp.1 bp.2 (by rw [hs])
          rw [scanCollectF_cons_some (b := bp.1) (p := bp.2) (by rw [hs]),
            scanCollectF_cons_some (b := bp.1) (p := bp.2) (by rw [hs]),
            ih f2 bp.2 (by simp at h1 hlt ⊢; omega) (by simp at h2 hlt ⊢; omega)]

theorem scanCollect_nil {step : Str → Option (Str × Str)} : scanCollect step [] = [] := rfl

theorem scanCollect_cons_none {step : Str → Option (Str × Str)}
    {c : Char} {rest : Str} (h : step (c :: rest) = none) :
    scanCollect step (c :: rest) = scanCollect step rest := by
  simp only [scanCollect, List.length_cons]
  exact scanCollectF_cons_none h

theorem scanCollect_cons_some {step : Str → Option (Str × Str)}
    {c : Char} {rest b p : Str}
    (hstep : ∀ s b p, step s = some (b, p) → p.length < s.length)
    (h : step (c :: rest) = some (b, p)) :
    scanCollect step (c :: rest) = b :: scanCollect step p := by
  simp only [scanCollect, List.length_cons]
  rw [scanCollectF_cons_some h]
  congr 1
  exact scanCollectF_fuel hstep rest.length p.length p
    (by have := hstep _ _ _ h; simp at this; omega) le_rfl

theorem scanCollect_append {step : Str → Option (Str × Str)} (A B : Str)
    (hA : ∀ A2, A2 <:+ A → A2 ≠ [] → step (A2 ++ B) = none) :
    scanCollect step (A ++ B) = scanCollect step B := by
  induction A with
  | nil => simp
  | cons c A ih =>
    rw [List.cons_append,
      scanCollect_cons_none (by simpa using hA (c :: A) (List.suffix_refl _) (by simp)),
      ih (fun A2 hs hn => hA A2 (hs.trans (List.suffix_cons c A)) hn)]

theorem scanCollect_eq_nil {step : Str → Option (Str × Str)} (s : Str)
    (h : ∀ s2, s2 <:+ s → s2 ≠ [] → step s2 = none) :
    scanCollect step s = [] := by
  induction s with
  | nil => rfl
  | cons c rest ih =>
    rw [scanCollect_cons_none (h _ (List.suffix_refl _) (by simp)),
      ih (fun s2 hs hn => h s2 (hs.trans (List.suffix_cons c rest)) hn)]

theorem scanAny_iff (test : Str → Bool) (s : Str) :
    scanAny test s = true ↔ ∃ s2, s2 <:+ s ∧ test s2 = true := by
  induction s with
  | nil =>
    simp only [scanAny]
    constructor
    · intro h; exact ⟨[], List.suffix_refl _, h⟩
    · rintro ⟨s2, hs, ht⟩
      obtain rfl := List.suffix_nil.mp hs
      exact ht
  | cons c rest ih =>
    simp only [scanAny, Bool.or_eq_true, ih]
    constructor
    · rintro (h | ⟨s2, hs, ht⟩)
      exacts [⟨c :: rest, List.suffix_refl _, h⟩, ⟨s2, hs.trans (List.suffix_cons c rest), ht⟩]
    · rintro ⟨s2, hs, ht⟩
      rcases List.suffix_cons_iff.mp hs with rfl | hs2
      exacts [Or.inl ht, Or.inr ⟨s2, hs2, ht⟩]

theorem findBlockSplit_cons_none {t : Str} {c : Char} {rest : Str}
    (h : tryBlockAt t (c :: rest) = none) :
    findBlockSplit t (c :: rest) =
      (findBlockSplit t rest).map (fun x => (c :: x.1, x.2.1, x.2.2)) := by
  simp only [findBlockSplit, h]

theorem findBlockSplit_cons_some {t : Str} {c : Char} {rest b p : Str}
    (h : tryBlockAt t (c :: rest) = some (b, p)) :
    findBlockSplit t (c :: rest) = some ([], b, p) := by
  simp only [findBlockSplit, h]

theorem findBlockSplit_append {t : Str} (A B : Str)
    (hA : ∀ A2, A2 <:+ A → A2 ≠ [] → tryBlockAt t (A2 ++ B) = none) :
    findBlockSplit t (A ++ B) =
      (findBlockSplit t B).map (fun x => (A ++ x.1, x.2.1, x.2.2)) := by
  induction A with
  | nil => cases hb : findBlockSplit t B <;> simp [hb]
  | cons c A ih =>
    rw [List.cons_append,
      findBlockSplit_cons_none (by simpa using hA (c :: A) (List.suffix_refl _) (by simp)),
      ih (fun A2 hs hn => hA A2 (hs.trans (List.suffix_cons c A)) hn)]
    cases hb : findBlockSplit t B <;> simp [hb]

/-! ## Bridging lemmas for the detection regex -/

theorem occurs_of_targetExistsIn {t doc : Str} (h : targetExistsIn t doc = true) :
    occurs (declOpen t) doc = true := by
  rw [occurs_true_iff]
  obtain ⟨s2, hs, ht⟩ := (scanAny_iff _ _).mp h
  simp only [matchWSAt, Bool.and_eq_true] at ht
  exact ((List.isPrefixOf_iff_prefix.mp ht.1).isInfix).trans hs.isInfix

theorem targetExistsIn_of_shape (t X Y : Str) (c : Char) (hc : goRegexSpace c = true) :
    targetExistsIn t (X ++ (declOpen t ++ c :: Y)) = true := by
  unfold targetExistsIn
  rw [scanAny_iff]
  refine ⟨declOpen t ++ c :: Y, List.suffix_append _ _, ?_⟩
  simp [matchWSAt, List.isPrefixOf_iff_prefix, List.prefix_append, List.drop_left, hc]

/-! ## Helpers specific to the addTarget editor -/

theorem declOpen_length (t : Str) : (declOpen t).length = 15 + t.length := by
  have h15 : ("add_executable(".data).length = 15 := rfl
  simp only [declOpen, List.length_append, h15]

theorem hdrOf_length (t : Str) : (hdrOf t).length = 16 + t.length := by
  simp only [hdrOf, List.length_append, declOpen_length, List.length_cons,
    List.length_nil]
  omega

theorem tryBlockAt_none_short {t s : Str} (h : s.length < 16) :
    tryBlockAt t s = none := by
  apply tryBlockAt_none_of_misfit
  intro hc
  have h1 := hc.length_le
  rw [hdrOf_length] at h1
  omega

theorem not_infix_declOpen_snocNl {t doc : Str} (hv : validName t = true)
    (h : ¬ declOpen t <:+: doc) : ¬ declOpen t <:+: doc ++ ['\n'] := by
  apply not_infix_append h
  · apply not_infix_of_length
    rw [declOpen_length]
    simp only [List.length_cons, List.length_nil]
    omega
  · exact noSpill_head ('\n') [] rfl (fun hm => nl_not_mem_declOpen hv hm)

theorem hdr_noStart {t A W : Str} (hv : validName t = true)
    (hA : ¬ declOpen t <:+: A) :
    ∀ A2, A2 <:+ A → A2 ≠ [] → tryBlockAt t (A2 ++ (hdrOf t ++ W)) = none := by
  intro A2 hs hn
  apply tryBlockAt_none_of_misfit
  refine noStart_of ?_ ?_ A2 hs hn
  · intro hc
    exact hA ((List.prefix_append (declOpen t) ['\n']).isInfix.trans hc)
  · exact noSpill_border (borderFree_hdr hv)

theorem findBlockSplit_eq_some_of_try {t s b p : Str} (hne : s ≠ [])
    (h : tryBlockAt t s = some (b, p)) : findBlockSplit t s = some ([], b, p) := by
  cases s with
  | nil => exact absurd rfl hne
  | cons c rest => exact findBlockSplit_cons_some h

theorem scanReplace_front {step : Str → Option (Str × Str)} {repl : Str} {s b p : Str}
    (hstep : ∀ s b p, step s = some (b, p) → p.length < s.length)
    (hne : s ≠ []) (h : step s = some (b, p)) :
    scanReplace step repl s = repl ++ scanReplace step repl p := by
  cases s with
  | nil => exact absurd rfl hne
  | cons c rest => exact scanReplace_cons_some hstep h

theorem scanCollect_front {step : Str → Option (Str × Str)} {s b p : Str}
    (hstep : ∀ s b p, step s = some (b, p) → p.length < s.length)
    (hne : s ≠ []) (h : step s = some (b, p)) :
    scanCollect step s = b :: scanCollect step p := by
  cases s with
  | nil => exact absurd rfl hne
  | cons c rest => exact scanCollect_cons_some hstep h

theorem hdr_append_ne_nil (t W : Str) : hdrOf t ++ W ≠ [] := by
  intro hc
  have := congrArg List.length hc
  rw [List.length_append, hdrOf_length] at this
  simp at this

theorem newTargetText_decomp (t : Str) (files : List Str) :
    newTargetText t files =
      ['\n'] ++ (hdrOf t ++
        ((("    ".data ++ List.intercalate sepStr files) ++ ['\n']) ++
          ')' :: ['\n'])) := by
  have h1 : "\nadd_executable(".data = '\n' :: "add_executable(".data := rfl
  have h2 : "\n    ".data = '\n' :: "    ".data := rfl
  have h3 : "\n)\n".data = '\n' :: ')' :: '\n' :: ([] : Str) := rfl
  simp only [newTargetText, hdrOf, declOpen, h1, h2, h3, List.append_assoc,
    List.cons_append, List.nil_append]

theorem append_newTargetText (doc t : Str) (files : List Str) :
    doc ++ newTargetText t files =
      (doc ++ ['\n']) ++ (hdrOf t ++
        ((("    ".data ++ List.intercalate sepStr files) ++ ['\n']) ++
          ')' :: ['\n'])) := by
  rw [newTargetText_decomp, ← List.append_assoc]

theorem mergedRepl_append (t : Str) (m : List Str) (Z : Str) :
    mergedRepl t m ++ Z = hdrOf t ++ (joinIndent m ++ ')' :: Z) := by
  simp only [mergedRepl, List.append_assoc, List.cons_append, List.nil_append]

/-! ## Claim C1 -/

/-- C1: for every document containing no declaration for target `t` (no
occurrence of the opening literal `add_executable(t`) and every ordinary
target name, running add-target(t, [a.cpp]) and then
add-target(t, [a.cpp, b.cpp]) on the result (both files existing on disk)
yields a document with a single declaration block for `t` whose ordered
entry list is exactly [a.cpp, b.cpp]: each path once, the existing entry
first, the new entry appended. -/
theorem claim_C1_merge_union (fs : FSModel) (doc t : Str)
    (hv : validName t = true)
    (hnd : occurs (declOpen t) doc = false)
    (ha : fs.stat aPath = some false) (hb : fs.stat bPath = some false) :
    Option.map (targetBlocks t)
      ((addTargetFull fs doc t [aPath]).bind
        (fun d1 => addTargetFull fs d1 t [aPath, bPath])) =
      some [[aPath, bPath]] := by
  have hg1 : containsGlobChar aPath = false := by decide
  have hg2 : containsGlobChar bPath = false := by decide
  have hfa : fileExists fs aPath = true := by simp [fileExists, ha]
  have hfb : fileExists fs bPath = true := by simp [fileExists, hb]
  have hres1 : resolveSourceFiles fs t [aPath] = some [aPath] := by
    simp [resolveSourceFiles, expandPattern, hg1, hfa]
  have hres2 : resolveSourceFiles fs t [aPath, bPath] = some [aPath, bPath] := by
    simp [resolveSourceFiles, expandPattern, hg1, hg2, hfa, hfb]
  have hTE1 : targetExistsIn t doc = false := by
    cases hte : targetExistsIn t doc
    · rfl
    · rw [occurs_of_targetExistsIn hte] at hnd
      exact absurd hnd (by simp)
  have hexp1 : (removeDuplicates [aPath]).map normalizeSeps = [aPath] := by decide
  have hedit1 : addTargetEdit doc t [aPath] = some (doc ++ newTargetText t [aPath]) := by
    simp [addTargetEdit, hexp1, hTE1]
  have hI1 : List.intercalate sepStr [aPath] = aPath := by decide
  have hshape1 : doc ++ newTargetText t [aPath] =
      (doc ++ ['\n']) ++ (hdrOf t ++ ((("    ".data ++ aPath) ++ ['\n']) ++ ')' :: ['\n'])) := by
    rw [append_newTargetText, hI1]
  have hAinf : ¬ declOpen t <:+: (doc ++ ['\n']) :=
    not_infix_declOpen_snocNl hv ((occurs_eq_false_iff _ _).mp hnd)
  have hb0ne : ("    ".data ++ aPath) ++ ['\n'] ≠ ([] : Str) := by decide
  have hb0ch : ∀ a ∈ ("    ".data ++ aPath) ++ ['\n'], a ≠ ')' := by decide
  have hTE2 : targetExistsIn t
      ((doc ++ ['\n']) ++ (hdrOf t ++ ((("    ".data ++ aPath) ++ ['\n']) ++ ')' :: ['\n']))) = true := by
    have hsh : hdrOf t ++ ((("    ".data ++ aPath) ++ ['\n']) ++ ')' :: ['\n']) =
        declOpen t ++ '\n' :: ((("    ".data ++ aPath) ++ ['\n']) ++ ')' :: ['\n']) := by
      simp [hdrOf, List.append_assoc]
    rw [hsh]
    exact targetExistsIn_of_shape t _ _ '\n' (by decide)
  have htry : tryBlockAt t (hdrOf t ++ ((("    ".data ++ aPath) ++ ['\n']) ++ ')' :: ['\n'])) =
      some (("    ".data ++ aPath) ++ ['\n'], ['\n']) :=
    tryBlockAt_front t _ _ hb0ne hb0ch
  have hsplit : findBlockSplit t
      ((doc ++ ['\n']) ++ (hdrOf t ++ ((("    ".data ++ aPath) ++ ['\n']) ++ ')' :: ['\n']))) =
      some (doc ++ ['\n'], ("    ".data ++ aPath) ++ ['\n'], ['\n']) := by
    rw [findBlockSplit_append _ _ (hdr_noStart hv hAinf),
      findBlockSplit_eq_some_of_try (hdr_append_ne_nil t _) htry]
    simp
  have hexp2 : (removeDuplicates [aPath, bPath]).map normalizeSeps = [aPath, bPath] := by decide
  have hclean : cleanEntries (("    ".data ++ aPath) ++ ['\n']) = [aPath] := by decide
  have hmerge : mergeSources [aPath] [aPath, bPath] = [aPath, bPath] := by decide
  have hedit2 : addTargetEdit
      ((doc ++ ['\n']) ++ (hdrOf t ++ ((("    ".data ++ aPath) ++ ['\n']) ++ ')' :: ['\n'])))
      t [aPath, bPath] =
      some (scanReplace (tryBlockAt t) (mergedRepl t [aPath, bPath])
        ((doc ++ ['\n']) ++ (hdrOf t ++ ((("    ".data ++ aPath) ++ ['\n']) ++ ')' :: ['\n'])))) := by
    simp only [addTargetEdit, hexp2, hTE2, if_true, hsplit, hclean, hmerge]
    simp
  have hshort : ∀ s2 : Str, s2 <:+ ['\n'] → s2 ≠ [] → tryBlockAt t s2 = none := by
    intro s2 hs _
    apply tryBlockAt_none_short
    have := hs.length_le
    simp only [List.length_cons, List.length_nil] at this
    omega
  have hreplS : scanReplace (tryBlockAt t) (mergedRepl t [aPath, bPath])
      ((doc ++ ['\n']) ++ (hdrOf t ++ ((("    ".data ++ aPath) ++ ['\n']) ++ ')' :: ['\n']))) =
      (doc ++ ['\n']) ++ (mergedRepl t [aPath, bPath] ++ ['\n']) := by
    rw [scanReplace_append _ _ (hdr_noStart hv hAinf),
      scanReplace_front (tryBlockAt_shrink t) (hdr_append_ne_nil t _) htry,
      scanReplace_id _ hshort]
  have hb1ne : joinIndent [aPath, bPath] ≠ ([] : Str) := by decide
  have hb1ch : ∀ a ∈ joinIndent [aPath, bPath], a ≠ ')' := by decide
  have htry2 : tryBlockAt t (hdrOf t ++ (joinIndent [aPath, bPath] ++ ')' :: ['\n'])) =
      some (joinIndent [aPath, bPath], ['\n']) :=
    tryBlockAt_front t _ _ hb1ne hb1ch
  have hcleanJ : cleanEntries (joinIndent [aPath, bPath]) = [aPath, bPath] := by decide
  have hblocks : targetBlocks t
      ((doc ++ ['\n']) ++ (hdrOf t ++ (joinIndent [aPath, bPath] ++ ')' :: ['\n']))) =
      [[aPath, bPath]] := by
    unfold targetBlocks
    rw [scanCollect_append _ _ (hdr_noStart hv hAinf),
      scanCollect_front (tryBlockAt_shrink t) (hdr_append_ne_nil t _) htry2,
      scanCollect_eq_nil _ hshort]
    simp only [List.map, hcleanJ]
  simp only [addTargetFull, hres1, Option.some_bind]
  rw [hedit1]
  simp only [Option.some_bind]
  rw [hshape1, hres2]
  simp only [Option.some_bind]
  rw [hedit2, Option.map_some', hreplS, mergedRepl_append, hblocks]

/-! ## Witness for C1; claims C6, C7, C10, C3 -/

/-- Witness for C1 at a concrete instance: the empty document, target
`app`, and a filesystem containing `a.cpp` and `b.cpp`. -/
theorem claim_C1_merge_union_witness :
    Option.map (targetBlocks "app".data)
      ((addTargetFull (fsOf [aPath, bPath]) [] "app".data [aPath]).bind
        (fun d1 => addTargetFull (fsOf [aPath, bPath]) d1 "app".data [aPath, bPath])) =
      some [[aPath, bPath]] :=
  claim_C1_merge_union (fsOf [aPath, bPath]) [] "app".data (by decide) (by decide)
    (by decide) (by decide)

/-- C6: initialize refuses to act in two cases: when the current directory
is the resolving user home directory, and when a configuration document
already exists at the destination; in both cases it reports an error and
performs no filesystem action. -/
theorem claim_C6_init_guards (env : Env) :
    (env.userHome = some env.cwd →
      initWrites (initProject env) = [] ∧ initErrorReported (initProject env) = true) ∧
    (fileExists env.fs cmakePath = true →
      initWrites (initProject env) = [] ∧ initErrorReported (initProject env) = true) := by
  constructor
  · intro h
    simp [initProject, h, initWrites, initErrorReported]
  · intro h
    by_cases hh : env.userHome = some env.cwd
    · simp [initProject, hh, initWrites, initErrorReported]
    · simp [initProject, hh, h, initWrites, initErrorReported]

/-- Witness for C6: a concrete home-directory environment and a concrete
environment with an existing document. -/
theorem claim_C6_init_guards_witness :
    (initWrites (initProject envHomeW) = [] ∧
      initErrorReported (initProject envHomeW) = true) ∧
    (initWrites (initProject envExistsW) = [] ∧
      initErrorReported (initProject envExistsW) = true) :=
  ⟨(claim_C6_init_guards envHomeW).1 rfl, (claim_C6_init_guards envExistsW).2 (by decide)⟩

/-- C7: whenever source-file resolution yields an empty list (an early
error return, or a pattern loop that accumulates nothing), add-target
reports an error and returns without writing the document. -/
theorem claim_C7_empty_resolution (fs : FSModel) (doc t : Str) (srcs : List Str)
    (h : resolveSourceFiles fs t srcs = none ∨ resolveSourceFiles fs t srcs = some []) :
    addTargetFull fs doc t srcs = none := by
  rcases h with h | h <;> simp [addTargetFull, h, addTargetEdit]

/-- Witness for C7: a single non-existent explicit file resolves to the
empty list and the operation writes nothing. -/
theorem claim_C7_empty_resolution_witness :
    addTargetFull (fsOf []) "doc".data "app".data ["missing.cpp".data] = none :=
  claim_C7_empty_resolution (fsOf []) "doc".data "app".data ["missing.cpp".data]
    (Or.inr (by decide))

theorem foldl_findSource (d : Str) (l : List (Str × Bool))
    (acc : List Str) :
    l.foldl (fun acc e =>
      if e.2 then acc
      else if isSourceFile e.1 then acc ++ [joinPath d e.1] else acc) acc =
      acc ++ (l.filter (fun e => !e.2 && isSourceFile e.1)).map (fun e => joinPath d e.1) := by
  induction l generalizing acc with
  | nil => simp
  | cons e l ih =>
    by_cases h2 : e.2
    · simp [List.foldl_cons, List.filter_cons, h2, ih]
    · by_cases h1 : isSourceFile e.1
      · simp [List.foldl_cons, List.filter_cons, h2, h1, ih]
      · simp [List.foldl_cons, List.filter_cons, h2, h1, ih]

/-- C10: an explicit argument that exists as a file and has no glob
metacharacter is appended to the resolved list verbatim, with no
source-extension check; the `isSourceFile` filter applies only to glob
matches and to files collected from a directory. -/
theorem claim_C10_explicit_verbatim (fs : FSModel) (p : Str) (acc : List Str) :
    (containsGlobChar p = false → fileExists fs p = true →
      expandPattern fs acc p = acc ++ [p]) ∧
    (∀ ms, containsGlobChar p = true → fs.glob p = some ms → ms ≠ [] →
      expandPattern fs acc p = acc ++ ms.filter isSourceFile) ∧
    (∀ d, findSourceFiles fs d =
      ((fs.entries d).filter (fun e => !e.2 && isSourceFile e.1)).map
        (fun e => joinPath d e.1)) := by
  refine ⟨?_, ?_, ?_⟩
  · intro hg hf
    simp [expandPattern, hg, hf]
  · intro ms hg hgl hne
    simp [expandPattern, hg, hgl, List.isEmpty_iff, hne]
  · intro d
    unfold findSourceFiles
    rw [foldl_findSource]
    simp

/-- Witness for C10: `README.md` exists, is not a recognized source file,
and is still added verbatim by the explicit-file branch. -/
theorem claim_C10_explicit_verbatim_witness :
    expandPattern (fsOf ["README.md".data]) [] "README.md".data =
      [] ++ ["README.md".data] ∧ isSourceFile "README.md".data = false :=
  ⟨(claim_C10_explicit_verbatim (fsOf ["README.md".data]) "README.md".data []).1
      (by decide) (by decide), by decide⟩

/-- C3 counterexample: on the empty document (which contains neither
output-directory marker), invoking add-standard-settings with no argument
twice appends the install block twice, so the document after the second
call differs from the document after the first. -/
theorem claim_C3_counterexample :
    addStandardConfig 0 (addStandardConfig 0 []) ≠ addStandardConfig 0 [] := by decide

/-- C3 amended: on any document containing one of the two output-directory
marker strings (as every document produced by initialize does), the
no-argument invocation is the identity, hence idempotent; on a document
lacking both markers each invocation appends a fresh install block, so
textual idempotence fails (see counterexample). -/
theorem claim_C3_amended (doc : Str)
    (h : occurs marker1 doc = true ∨ occurs marker2 doc = true) :
    addStandardConfig 0 doc = doc ∧
      addStandardConfig 0 (addStandardConfig 0 doc) = addStandardConfig 0 doc := by
  have hid : addStandardConfig 0 doc = doc := by
    rcases h with h | h <;> simp [addStandardConfig, h]
  refine ⟨hid, ?_⟩
  rw [hid, hid]

/-- Witness for C3 amended: a concrete document containing the runtime
output-directory marker. -/
theorem claim_C3_amended_witness :
    addStandardConfig 0 "set(CMAKE_RUNTIME_OUTPUT_DIRECTORY x)\n".data =
      "set(CMAKE_RUNTIME_OUTPUT_DIRECTORY x)\n".data ∧
    addStandardConfig 0 (addStandardConfig 0 "set(CMAKE_RUNTIME_OUTPUT_DIRECTORY x)\n".data) =
      addStandardConfig 0 "set(CMAKE_RUNTIME_OUTPUT_DIRECTORY x)\n".data :=
  claim_C3_amended "set(CMAKE_RUNTIME_OUTPUT_DIRECTORY x)\n".data (Or.inl (by decide))

/-! ## Claim C4 -/

theorem targetExistsIn_eq_false {t doc : Str}
    (hnd : occurs (declOpen t) doc = false) : targetExistsIn t doc = false := by
  cases hte : targetExistsIn t doc
  · rfl
  · rw [occurs_of_targetExistsIn hte] at hnd
    exact absurd hnd (by simp)

theorem removeDuplicates_aux_nodup (files : List Str) :
    ∀ acc : List Str, acc.Nodup →
      (files.foldl (fun acc f => if f ∈ acc then acc else acc ++ [f]) acc).Nodup := by
  induction files with
  | nil => intro acc h; exact h
  | cons f files ih =>
    intro acc h
    simp only [List.foldl_cons]
    by_cases hf : f ∈ acc
    · rw [if_pos hf]; exact ih acc h
    · rw [if_neg hf]
      exact ih _ (by simp [List.nodup_append, h, hf])

theorem removeDuplicates_nodup (files : List Str) : (removeDuplicates files).Nodup :=
  removeDuplicates_aux_nodup files [] List.nodup_nil

theorem backslash_not_mem_normalizeSeps (f : Str) : '\\' ∉ normalizeSeps f := by
  intro hm
  simp only [normalizeSeps, List.mem_map] at hm
  obtain ⟨c, -, hc⟩ := hm
  by_cases h : c = '\\'
  · rw [if_pos h] at hc; exact absurd hc (by decide)
  · rw [if_neg h] at hc; exact h hc

/-- C4 counterexample: the two supplied paths `a\b.cpp` and `a/b.cpp`
differ only in separator style, both exist as files, and the written block
for a fresh target lists `a/b.cpp` twice: duplicate removal runs before
backslash normalization, so the entries of the written block are not
pairwise distinct. -/
theorem claim_C4_counterexample :
    Option.map (targetBlocks "app".data)
      (addTargetFull (fsOf [bsPath, fsPath]) [] "app".data [bsPath, fsPath]) =
      some [[fsPath, fsPath]] := by decide

/-- C4 amended: add-target removes duplicates by exact string equality
BEFORE normalizing backslashes to forward slashes; the freshly written
block's entry list is exactly the exact-deduplicated then normalized list.
Consequently a backslash in a supplied path still yields a forward-slash
entry in the document, but two supplied paths that differ only in
separator style produce two identical entries rather than one. -/
theorem claim_C4_amended (doc t : Str) (files : List Str)
    (hnd : occurs (declOpen t) doc = false) (hne : files ≠ []) :
    addTargetEdit doc t files =
      some (doc ++ newTargetText t ((removeDuplicates files).map normalizeSeps)) ∧
    (∀ e ∈ (removeDuplicates files).map normalizeSeps, '\\' ∉ e) ∧
    (removeDuplicates files).Nodup := by
  refine ⟨?_, ?_, removeDuplicates_nodup files⟩
  · have hTE := targetExistsIn_eq_false hnd
    simp [addTargetEdit, hTE, List.isEmpty_iff, hne]
  · intro e he
    simp only [List.mem_map] at he
    obtain ⟨f, -, rfl⟩ := he
    exact backslash_not_mem_normalizeSeps f

/-- Witness for C4 amended at the counterexample input. -/
theorem claim_C4_amended_witness :
    addTargetEdit [] "app".data [bsPath, fsPath] =
      some ([] ++ newTargetText "app".data
        ((removeDuplicates [bsPath, fsPath]).map normalizeSeps)) ∧
    (∀ e ∈ (removeDuplicates [bsPath, fsPath]).map normalizeSeps, '\\' ∉ e) ∧
    (removeDuplicates [bsPath, fsPath]).Nodup :=
  claim_C4_amended [] "app".data [bsPath, fsPath] (by decide) (by decide)

/-! ## Entry-cleaning machinery (splitLines, trimSpace, joinIndent) -/

theorem headD_reverse (l : Str) (d : Char) : l.reverse.headD d = l.getLastD d := by
  rw [List.headD_eq_head?_getD, List.head?_reverse, List.getLastD_eq_getLast?]

theorem getLastD_reverse (l : Str) (d : Char) : l.reverse.getLastD d = l.headD d := by
  rw [List.getLastD_eq_getLast?, List.getLast?_reverse, List.headD_eq_head?_getD]

theorem dropWhile_head_false (p : Char → Bool) :
    ∀ (l : Str) (c : Char) (w : Str), List.dropWhile p l = c :: w → p c = false := by
  intro l
  induction l with
  | nil => intro c w h; simp at h
  | cons x xs ih =>
    intro c w h
    rw [List.dropWhile_cons] at h
    by_cases hx : p x
    · rw [if_pos hx] at h; exact ih c w h
    · rw [if_neg hx] at h
      obtain ⟨rfl, -⟩ := List.cons.injEq .. ▸ h
      simpa using hx

theorem dropWhile_eq_self_of_head {p : Char → Bool} {l : Str}
    (hne : l ≠ []) (h : p (l.headD ' ') = false) : l.dropWhile p = l := by
  cases l with
  | nil => exact absurd rfl hne
  | cons c w =>
    rw [List.dropWhile_cons, if_neg]
    simp only [List.headD] at h
    simp [h]

theorem dropWhile_all_append {p : Char → Bool} {pre : Str} (x : Str)
    (hpre : ∀ a ∈ pre, p a = true) :
    List.dropWhile p (pre ++ x) = List.dropWhile p x := by
  induction pre with
  | nil => rfl
  | cons a pre ih =>
    rw [List.cons_append, List.dropWhile_cons, if_pos (hpre a (List.mem_cons_self a pre))]
    exact ih (fun b hb => hpre b (List.mem_cons_of_mem a hb))

theorem trimFixed_spec {e : Str} (h : trimFixed e = true) :
    e ≠ [] ∧ goSpace (e.headD ' ') = false ∧ goSpace (e.getLastD ' ') = false := by
  simp only [trimFixed, Bool.and_eq_true, Bool.not_eq_true'] at h
  refine ⟨?_, h.1.2, h.2⟩
  intro hc
  subst hc
  simp at h

theorem trim_back {e : Str} (hne : e ≠ [])
    (hl : goSpace (e.getLastD ' ') = false) :
    (e.reverse.dropWhile goSpace).reverse = e := by
  rw [dropWhile_eq_self_of_head (by simpa using hne) (by rw [headD_reverse]; exact hl),
    List.reverse_reverse]

theorem trimFixed_trimSpace_eq {e : Str} (h : trimFixed e = true) : trimSpace e = e := by
  obtain ⟨hne, hh, hl⟩ := trimFixed_spec h
  rw [trimSpace, dropWhile_eq_self_of_head hne hh, trim_back hne hl]

theorem trim_indent {e : Str} (h : trimFixed e = true) :
    trimSpace (indentStr ++ e) = e := by
  obtain ⟨hne, hh, hl⟩ := trimFixed_spec h
  rw [trimSpace, dropWhile_all_append e (by decide), dropWhile_eq_self_of_head hne hh,
    trim_back hne hl]

theorem dropWhile_suffix_getLast? {p : Char → Bool} {w : Str}
    (hne : w.dropWhile p ≠ []) : (w.dropWhile p).getLast? = w.getLast? := by
  obtain ⟨u, hu⟩ := List.dropWhile_suffix (l := w) p
  conv_rhs => rw [← hu]
  rw [List.getLast?_append_of_ne_nil u hne]

theorem trimSpace_trimFixed (x : Str) :
    trimSpace x = [] ∨ trimFixed (trimSpace x) = true := by
  by_cases hnil : trimSpace x = []
  · exact Or.inl hnil
  · right
    rw [trimSpace] at hnil ⊢
    have hv : (x.dropWhile goSpace).reverse.dropWhile goSpace ≠ [] := by
      intro hc; rw [hc] at hnil; exact hnil rfl
    have hu : x.dropWhile goSpace ≠ [] := by
      intro hc
      rw [hc] at hv
      exact hv rfl
    obtain ⟨c, w, hc⟩ : ∃ c w, (x.dropWhile goSpace).reverse.dropWhile goSpace = c :: w := by
      cases hvv : (x.dropWhile goSpace).reverse.dropWhile goSpace with
      | nil => exact absurd hvv hv
      | cons c w => exact ⟨c, w, rfl⟩
    obtain ⟨d, u, hd⟩ : ∃ d u, x.dropWhile goSpace = d :: u := by
      cases huu : x.dropWhile goSpace with
      | nil => exact absurd huu hu
      | cons d u => exact ⟨d, u, rfl⟩
    have hc1 : goSpace c = false := dropWhile_head_false goSpace _ c w hc
    have hd1 : goSpace d = false := dropWhile_head_false goSpace _ d u hd
    simp only [trimFixed, Bool.and_eq_true, Bool.not_eq_true']
    refine ⟨⟨?_, ?_⟩, ?_⟩
    · simp [List.isEmpty_iff, hv]
    · rw [headD_reverse, List.getLastD_eq_getLast?, dropWhile_suffix_getLast? hv,
        List.getLast?_reverse, hd]
      simpa [List.head?] using hd1
    · rw [getLastD_reverse, hc]
      simpa [List.headD] using hc1

theorem splitLines_ne_nil : ∀ s : Str, splitLines s ≠ [] := by
  intro s
  induction s with
  | nil => simp [splitLines]
  | cons c rest ih =>
    simp only [splitLines]
    by_cases hc : c = '\n'
    · simp [hc]
    · rw [if_neg hc]
      cases hsp : splitLines rest <;> simp

theorem splitLines_mem_no_nl : ∀ (s : Str), ∀ l ∈ splitLines s, '\n' ∉ l := by
  intro s
  induction s with
  | nil =>
    intro l hl
    simp only [splitLines, List.mem_singleton] at hl
    subst hl
    simp
  | cons c rest ih =>
    intro l hl
    simp only [splitLines] at hl
    by_cases hc : c = '\n'
    · rw [if_pos hc] at hl
      rcases List.mem_cons.mp hl with rfl | h
      · simp
      · exact ih l h
    · rw [if_neg hc] at hl
      cases hsp : splitLines rest with
      | nil => exact absurd hsp (splitLines_ne_nil rest)
      | cons m ms =>
        rw [hsp] at hl
        rcases List.mem_cons.mp hl with rfl | h
        · intro hmem
          rcases List.mem_cons.mp hmem with h1 | h1
          · exact hc h1.symm
          · exact ih m (hsp ▸ List.mem_cons_self m ms) h1
        · exact ih l (hsp ▸ List.mem_cons_of_mem m h)

theorem splitLines_subset : ∀ (s : Str), ∀ l ∈ splitLines s, ∀ a ∈ l, a ∈ s := by
  intro s
  induction s with
  | nil =>
    intro l hl a ha
    simp only [splitLines, List.mem_singleton] at hl
    subst hl
    simp at ha
  | cons c rest ih =>
    intro l hl a ha
    simp only [splitLines] at hl
    by_cases hc : c = '\n'
    · rw [if_pos hc] at hl
      rcases List.mem_cons.mp hl with rfl | h
      · simp at ha
      · exact List.mem_cons_of_mem c (ih l h a ha)
    · rw [if_neg hc] at hl
      cases hsp : splitLines rest with
      | nil => exact absurd hsp (splitLines_ne_nil rest)
      | cons m ms =>
        rw [hsp] at hl
        rcases List.mem_cons.mp hl with rfl | h
        · rcases List.mem_cons.mp ha with rfl | h1
          · exact List.mem_cons_self a rest
          · exact List.mem_cons_of_mem c (ih m (hsp ▸ List.mem_cons_self m ms) a h1)
        · exact List.mem_cons_of_mem c (ih l (hsp ▸ List.mem_cons_of_mem m h) a ha)

theorem splitLines_no_nl {A : Str} (h : '\n' ∉ A) : splitLines A = [A] := by
  induction A with
  | nil => rfl
  | cons c rest ih =>
    simp only [splitLines]
    rw [if_neg (by rintro rfl; exact h (List.mem_cons_self _ _))]
    rw [ih (fun hm => h (List.mem_cons_of_mem c hm))]

theorem splitLines_append_nl {A : Str} (B : Str) (h : '\n' ∉ A) :
    splitLines (A ++ '\n' :: B) = A :: splitLines B := by
  induction A with
  | nil => simp [splitLines]
  | cons c rest ih =>
    rw [List.cons_append]
    simp only [splitLines]
    rw [if_neg (by rintro rfl; exact h (List.mem_cons_self _ _))]
    rw [ih (fun hm => h (List.mem_cons_of_mem c hm))]

/-! ## Intercalate and merged-entry machinery -/

theorem intercalate_singleton (sep e : Str) : List.intercalate sep [e] = e := by
  simp [List.intercalate]

theorem intercalate_cons_cons (sep e f : Str) (l : List Str) :
    List.intercalate sep (e :: f :: l) = e ++ sep ++ List.intercalate sep (f :: l) := by
  simp [List.intercalate, List.intersperse_cons_cons, List.append_assoc]

theorem intercalate_mem {sep : Str} {entries : List Str} {a : Char}
    (h : a ∈ List.intercalate sep entries) : a ∈ sep ∨ ∃ e ∈ entries, a ∈ e := by
  induction entries with
  | nil => simp [List.intercalate] at h
  | cons e es ih =>
    cases es with
    | nil =>
      rw [intercalate_singleton] at h
      exact Or.inr ⟨e, List.mem_cons_self e [], h⟩
    | cons f es2 =>
      rw [intercalate_cons_cons] at h
      rcases List.mem_append.mp h with h1 | h1
      · rcases List.mem_append.mp h1 with h2 | h2
        · exact Or.inr ⟨e, List.mem_cons_self e (f :: es2), h2⟩
        · exact Or.inl h2
      · rcases ih h1 with h2 | ⟨g, hg, hga⟩
        · exact Or.inl h2
        · exact Or.inr ⟨g, List.mem_cons_of_mem e hg, hga⟩

theorem joinIndent_chars {entries : List Str}
    (h : ∀ e ∈ entries, ∀ a ∈ e, a ≠ ')') :
    ∀ a ∈ joinIndent entries, a ≠ ')' := by
  intro a ha
  rcases List.mem_append.mp ha with h1 | h1
  · exact (show ∀ x ∈ indentStr, x ≠ ')' by decide) a h1
  · rcases intercalate_mem h1 with h2 | ⟨e, he, hae⟩
    · exact (show ∀ x ∈ sepStr, x ≠ ')' by decide) a h2
    · exact h e he a hae

theorem joinIndent_ne_nil (entries : List Str) : joinIndent entries ≠ [] := by
  intro hc
  have h4 : (indentStr).length = 4 := rfl
  have := congrArg List.length hc
  rw [joinIndent, List.length_append, h4] at this
  simp at this

theorem cleanEntries_joinIndent (entries : List Str)
    (h : ∀ e ∈ entries, trimFixed e = true ∧ '\n' ∉ e) :
    cleanEntries (joinIndent entries) = entries := by
  induction entries with
  | nil => decide
  | cons e es ih =>
    obtain ⟨hf, hnl⟩ := h e (List.mem_cons_self e es)
    have hno : '\n' ∉ indentStr ++ e := by
      intro hm
      rcases List.mem_append.mp hm with h1 | h1
      · revert h1; decide
      · exact hnl h1
    have hEne : e ≠ [] := (trimFixed_spec hf).1
    cases es with
    | nil =>
      unfold cleanEntries joinIndent
      rw [intercalate_singleton, splitLines_no_nl hno]
      simp [trim_indent hf, List.isEmpty_iff, hEne]
    | cons f es2 =>
      have hshape : joinIndent (e :: f :: es2) =
          (indentStr ++ e) ++ '\n' :: joinIndent (f :: es2) := by
        rw [joinIndent, intercalate_cons_cons, joinIndent]
        have hsep : sepStr = '\n' :: indentStr := rfl
        rw [hsep]
        simp [List.append_assoc]
      rw [hshape]
      unfold cleanEntries
      rw [splitLines_append_nl _ hno]
      simp only [List.map_cons, List.filter_cons, trim_indent hf]
      rw [if_pos (by simp [List.isEmpty_iff, hEne])]
      have ih2 := ih (fun g hg => h g (List.mem_cons_of_mem e hg))
      unfold cleanEntries at ih2
      rw [ih2]

theorem trimSpace_subset {l : Str} {a : Char} (h : a ∈ trimSpace l) : a ∈ l := by
  simp only [trimSpace, List.mem_reverse] at h
  have h2 := (List.dropWhile_suffix (l := (l.dropWhile goSpace).reverse) goSpace).sublist.subset h
  rw [List.mem_reverse] at h2
  exact (List.dropWhile_suffix (l := l) goSpace).sublist.subset h2

theorem cleanEntries_mem {body e : Str} (h : e ∈ cleanEntries body) :
    trimFixed e = true ∧ '\n' ∉ e ∧ ∀ a ∈ e, a ∈ body := by
  simp only [cleanEntries, List.mem_filter, List.mem_map] at h
  obtain ⟨⟨l, hl, rfl⟩, hne⟩ := h
  have hEne : trimSpace l ≠ [] := by simpa [List.isEmpty_iff] using hne
  refine ⟨?_, ?_, ?_⟩
  · rcases trimSpace_trimFixed l with h1 | h1
    · exact absurd h1 hEne
    · exact h1
  · intro hm
    exact splitLines_mem_no_nl body l hl (trimSpace_subset hm)
  · intro a ha
    exact splitLines_subset body l hl a (trimSpace_subset ha)

theorem mergeSources_mem : ∀ (newFiles existing : List Str) (x : Str),
    x ∈ mergeSources existing newFiles → x ∈ existing ∨ x ∈ newFiles := by
  intro newFiles
  induction newFiles with
  | nil => intro ex x h; exact Or.inl h
  | cons f fs ih =>
    intro ex x h
    simp only [mergeSources, List.foldl_cons] at h
    by_cases hf : f ∈ ex
    · rw [if_pos hf] at h
      rcases ih ex x h with h1 | h1
      · exact Or.inl h1
      · exact Or.inr (List.mem_cons_of_mem f h1)
    · rw [if_neg hf] at h
      rcases ih (ex ++ [f]) x h with h1 | h1
      · rcases List.mem_append.mp h1 with h2 | h2
        · exact Or.inl h2
        · simp only [List.mem_singleton] at h2
          subst h2
          exact Or.inr (List.mem_cons_self x fs)
      · exact Or.inr (List.mem_cons_of_mem f h1)

theorem removeDuplicates_subset {files : List Str} {x : Str}
    (h : x ∈ removeDuplicates files) : x ∈ files := by
  rcases mergeSources_mem files [] x h with h1 | h1
  · simp at h1
  · exact h1

theorem normalizeSeps_id {p : Str} (h : ∀ a ∈ p, a ≠ '\\') : normalizeSeps p = p := by
  induction p with
  | nil => rfl
  | cons c rest ih =>
    simp only [normalizeSeps, List.map_cons] at *
    rw [if_neg (h c (List.mem_cons_self c rest)), ih (fun a ha => h a (List.mem_cons_of_mem c ha))]

theorem pathChar_not_space {c : Char} (h : pathChar c = true) : goSpace c = false := by
  have hs := pathChar_not_special h
  push_neg at hs
  obtain ⟨h1, h2, h3, h4, h5, h6, h7, h8, h9, h10, h11⟩ := hs
  simp [goSpace, h1, h5, h6, h7, h8, h9]

theorem getLastD_mem {l : Str} (hne : l ≠ []) (d : Char) : l.getLastD d ∈ l := by
  rw [List.getLastD_eq_getLast?, List.getLast?_eq_getLast l hne]
  simp only [Option.getD_some]
  exact List.getLast_mem hne

theorem validPath_trimFixed {p : Str} (h : validPath p = true) : trimFixed p = true := by
  have hne := validPath_ne_nil h
  have hh : goSpace (p.headD ' ') = false := by
    cases p with
    | nil => exact absurd rfl hne
    | cons c rest =>
      exact pathChar_not_space (validPath_mem h (List.mem_cons_self c rest))
  have hl : goSpace (p.getLastD ' ') = false :=
    pathChar_not_space (validPath_mem h (getLastD_mem hne ' '))
  have hie : p.isEmpty = false := by
    cases p with
    | nil => exact absurd rfl hne
    | cons c rest => rfl
  simp only [trimFixed, Bool.and_eq_true, Bool.not_eq_true']
  exact ⟨⟨hie, hh⟩, hl⟩

theorem tryBlockAt_none_all {t Y : Str} (hY : ¬ declOpen t <:+: Y) :
    ∀ s2, s2 <:+ Y → s2 ≠ [] → tryBlockAt t s2 = none := by
  intro s2 hs _
  apply tryBlockAt_none_of_misfit
  intro hc
  exact hY (((List.prefix_append (declOpen t) ['\n']).trans hc).isInfix.trans hs.isInfix)

theorem hdr_shape_ws (t W : Str) : hdrOf t ++ W = declOpen t ++ '\n' :: W := by
  simp [hdrOf, List.append_assoc]

theorem merged_entry_props (body : Str) (files : List Str)
    (hbch : ∀ a ∈ body, a ≠ ')') (hfp : ∀ f ∈ files, validPath f = true) :
    (joinIndent (mergeSources (cleanEntries body) (removeDuplicates files)) ≠ []) ∧
    (∀ a ∈ joinIndent (mergeSources (cleanEntries body) (removeDuplicates files)), a ≠ ')') ∧
    cleanEntries (joinIndent (mergeSources (cleanEntries body) (removeDuplicates files))) =
      mergeSources (cleanEntries body) (removeDuplicates files) := by
  have hmem : ∀ e ∈ mergeSources (cleanEntries body) (removeDuplicates files),
      trimFixed e = true ∧ '\n' ∉ e ∧ ∀ a ∈ e, a ≠ ')' := by
    intro e he
    rcases mergeSources_mem _ _ e he with h1 | h1
    · obtain ⟨htf, hnl, hsub⟩ := cleanEntries_mem h1
      exact ⟨htf, hnl, fun a ha => hbch a (hsub a ha)⟩
    · have hvp := hfp e (removeDuplicates_subset h1)
      refine ⟨validPath_trimFixed hvp, ?_, ?_⟩
      · intro hm
        exact (pathChar_not_special (validPath_mem hvp hm)) (Or.inl rfl)
      · intro a ha hc
        subst hc
        exact (pathChar_not_special (validPath_mem hvp ha)) (Or.inr (Or.inr (Or.inl rfl)))
  refine ⟨joinIndent_ne_nil _, joinIndent_chars (fun e he => (hmem e he).2.2),
    cleanEntries_joinIndent _ (fun e he => ⟨(hmem e he).1, (hmem e he).2.1⟩)⟩

/-! ## Claims C2 and C9 -/

/-- C2 counterexample: a document that already holds two declaration blocks
for `app` still holds two after add-target(app, [z.cpp]): the operation
does not restore per-name uniqueness, so it can produce a document with
two declaration blocks for the same name. -/
theorem claim_C2_counterexample :
    (targetBlocks "app".data doc2cex).length = 2 ∧
    Option.map (fun d => (targetBlocks "app".data d).length)
      (addTargetFull (fsOf ["z.cpp".data]) doc2cex "app".data ["z.cpp".data]) =
      some 2 := by decide

/-- C2 amended: when the document contains a declaration block in the shape
the tool emits, add-target merges into it in place and appends nothing: on
a document with exactly one block for `t` the result again has exactly one
block, holding the merged entry list, with the surrounding text unchanged.
(The operation does not enforce global uniqueness: a document already
holding two blocks for the name keeps two, see the counterexample.) -/
theorem claim_C2_amended (t X Y body : Str) (files : List Str)
    (hv : validName t = true)
    (hX : occurs (declOpen t) X = false) (hY : occurs (declOpen t) Y = false)
    (hbne : body ≠ []) (hbch : ∀ a ∈ body, a ≠ ')')
    (hfne : files ≠ []) (hfp : ∀ f ∈ files, validPath f = true) :
    addTargetEdit (X ++ (hdrOf t ++ (body ++ ')' :: Y))) t files =
      some (X ++ (hdrOf t ++
        (joinIndent (mergeSources (cleanEntries body) (removeDuplicates files)) ++ ')' :: Y))) ∧
    targetBlocks t (X ++ (hdrOf t ++
        (joinIndent (mergeSources (cleanEntries body) (removeDuplicates files)) ++ ')' :: Y))) =
      [mergeSources (cleanEntries body) (removeDuplicates files)] := by
  have hAinf : ¬ declOpen t <:+: X := (occurs_eq_false_iff _ _).mp hX
  have hYinf : ¬ declOpen t <:+: Y := (occurs_eq_false_iff _ _).mp hY
  have hfie : files.isEmpty = false := by
    cases files with
    | nil => exact absurd rfl hfne
    | cons f fs => rfl
  have hexp : (removeDuplicates files).map normalizeSeps = removeDuplicates files := by
    have hid : ∀ f ∈ removeDuplicates files, normalizeSeps f = f := by
      intro f hf
      refine normalizeSeps_id (fun a ha hc => ?_)
      subst hc
      exact (pathChar_not_special (validPath_mem (hfp f (removeDuplicates_subset hf)) ha))
        (Or.inr (Or.inr (Or.inr (Or.inr (Or.inr (Or.inr (Or.inr (Or.inr (Or.inr (Or.inl rfl))))))))))
    calc (removeDuplicates files).map normalizeSeps
        = (removeDuplicates files).map id := List.map_congr_left hid
      _ = removeDuplicates files := List.map_id _
  obtain ⟨hJne, hJch, hCE⟩ := merged_entry_props body files hbch hfp
  have hTE : targetExistsIn t (X ++ (hdrOf t ++ (body ++ ')' :: Y))) = true := by
    rw [hdr_shape_ws]
    exact targetExistsIn_of_shape t _ _ '\n' (by decide)
  have htry : tryBlockAt t (hdrOf t ++ (body ++ ')' :: Y)) = some (body, Y) :=
    tryBlockAt_front t body Y hbne hbch
  have hsplit : findBlockSplit t (X ++ (hdrOf t ++ (body ++ ')' :: Y))) =
      some (X, body, Y) := by
    rw [findBlockSplit_append _ _ (hdr_noStart hv hAinf),
      findBlockSplit_eq_some_of_try (hdr_append_ne_nil t _) htry]
    simp
  have hrepl : scanReplace (tryBlockAt t)
      (mergedRepl t (mergeSources (cleanEntries body) (removeDuplicates files)))
      (X ++ (hdrOf t ++ (body ++ ')' :: Y))) =
      X ++ (hdrOf t ++
        (joinIndent (mergeSources (cleanEntries body) (removeDuplicates files)) ++ ')' :: Y)) := by
    rw [scanReplace_append _ _ (hdr_noStart hv hAinf),
      scanReplace_front (tryBlockAt_shrink t) (hdr_append_ne_nil t _) htry,
      scanReplace_id _ (tryBlockAt_none_all hYinf), mergedRepl_append]
  constructor
  · simp only [addTargetEdit, hfie, Bool.false_eq_true, if_false, hexp, hTE, if_true, hsplit]
    rw [hrepl]
  · unfold targetBlocks
    rw [scanCollect_append _ _ (hdr_noStart hv hAinf),
      scanCollect_front (tryBlockAt_shrink t) (hdr_append_ne_nil t _)
        (tryBlockAt_front t _ Y hJne hJch),
      scanCollect_eq_nil _ (tryBlockAt_none_all hYinf)]
    simp only [List.map_cons, List.map_nil, hCE]

/-- Witness for C2 amended at a concrete one-block document. -/
theorem claim_C2_amended_witness :
    addTargetEdit (([] : Str) ++ (hdrOf "app".data ++ ("    x.cpp\n".data ++ ')' :: "\n".data)))
      "app".data ["z.cpp".data] =
      some (([] : Str) ++ (hdrOf "app".data ++
        (joinIndent (mergeSources (cleanEntries "    x.cpp\n".data)
          (removeDuplicates ["z.cpp".data])) ++ ')' :: "\n".data))) ∧
    targetBlocks "app".data (([] : Str) ++ (hdrOf "app".data ++
        (joinIndent (mergeSources (cleanEntries "    x.cpp\n".data)
          (removeDuplicates ["z.cpp".data])) ++ ')' :: "\n".data))) =
      [mergeSources (cleanEntries "    x.cpp\n".data) (removeDuplicates ["z.cpp".data])] :=
  claim_C2_amended "app".data [] "\n".data "    x.cpp\n".data ["z.cpp".data]
    (by decide) (by decide) (by decide) (by decide) (by decide) (by decide)
    (by decide)

/-- C9 counterexample: on a document with two matching blocks for `app`
(the second listing `y.cpp`), add-target(app, [z.cpp]) rewrites the later
matching block as well: `y.cpp` disappears from the document entirely, so
the later block is not left textually unchanged. -/
theorem claim_C9_counterexample :
    occurs "y.cpp".data doc2cex = true ∧
    Option.map (occurs "y.cpp".data)
      (addTargetFull (fsOf ["z.cpp".data]) doc2cex "app".data ["z.cpp".data]) =
      some false := by decide

/-- C9 amended: the merge reads the entry list only from the first matching
block, but `ReplaceAllString` rewrites every matching block with that
merged list: on a document with two matching blocks both end up holding
the first block's merged entries, with the text between and around them
unchanged. -/
theorem claim_C9_amended (t X M Y body1 body2 : Str) (files : List Str)
    (hv : validName t = true)
    (hX : occurs (declOpen t) X = false) (hM : occurs (declOpen t) M = false)
    (hY : occurs (declOpen t) Y = false)
    (hb1ne : body1 ≠ []) (hb1ch : ∀ a ∈ body1, a ≠ ')')
    (hb2ne : body2 ≠ []) (hb2ch : ∀ a ∈ body2, a ≠ ')')
    (hfne : files ≠ []) (hfp : ∀ f ∈ files, validPath f = true) :
    addTargetEdit
      (X ++ (hdrOf t ++ (body1 ++ ')' :: (M ++ (hdrOf t ++ (body2 ++ ')' :: Y))))))
      t files =
      some (X ++ (hdrOf t ++
        (joinIndent (mergeSources (cleanEntries body1) (removeDuplicates files)) ++ ')' ::
          (M ++ (hdrOf t ++
            (joinIndent (mergeSources (cleanEntries body1) (removeDuplicates files)) ++ ')' :: Y)))))) ∧
    targetBlocks t (X ++ (hdrOf t ++
        (joinIndent (mergeSources (cleanEntries body1) (removeDuplicates files)) ++ ')' ::
          (M ++ (hdrOf t ++
            (joinIndent (mergeSources (cleanEntries body1) (removeDuplicates files)) ++ ')' :: Y)))))) =
      [mergeSources (cleanEntries body1) (removeDuplicates files),
        mergeSources (cleanEntries body1) (removeDuplicates files)] := by
  have hAinf : ¬ declOpen t <:+: X := (occurs_eq_false_iff _ _).mp hX
  have hMinf : ¬ declOpen t <:+: M := (occurs_eq_false_iff _ _).mp hM
  have hYinf : ¬ declOpen t <:+: Y := (occurs_eq_false_iff _ _).mp hY
  have hfie : files.isEmpty = false := by
    cases files with
    | nil => exact absurd rfl hfne
    | cons f fs => rfl
  have hexp : (removeDuplicates files).map normalizeSeps = removeDuplicates files := by
    have hid : ∀ f ∈ removeDuplicates files, normalizeSeps f = f := by
      intro f hf
      refine normalizeSeps_id (fun a ha hc => ?_)
      subst hc
      exact (pathChar_not_special (validPath_mem (hfp f (removeDuplicates_subset hf)) ha))
        (Or.inr (Or.inr (Or.inr (Or.inr (Or.inr (Or.inr (Or.inr (Or.inr (Or.inr (Or.inl rfl))))))))))
    calc (removeDuplicates files).map normalizeSeps
        = (removeDuplicates files).map id := List.map_congr_left hid
      _ = removeDuplicates files := List.map_id _
  obtain ⟨hJne, hJch, hCE⟩ := merged_entry_props body1 files hb1ch hfp
  have hTE : targetExistsIn t
      (X ++ (hdrOf t ++ (body1 ++ ')' :: (M ++ (hdrOf t ++ (body2 ++ ')' :: Y)))))) = true := by
    rw [hdr_shape_ws]
    exact targetExistsIn_of_shape t _ _ '\n' (by decide)
  have htry1 : tryBlockAt t
      (hdrOf t ++ (body1 ++ ')' :: (M ++ (hdrOf t ++ (body2 ++ ')' :: Y))))) =
      some (body1, M ++ (hdrOf t ++ (body2 ++ ')' :: Y))) :=
    tryBlockAt_front t body1 _ hb1ne hb1ch
  have htry2 : tryBlockAt t (hdrOf t ++ (body2 ++ ')' :: Y)) = some (body2, Y) :=
    tryBlockAt_front t body2 Y hb2ne hb2ch
  have hsplit : findBlockSplit t
      (X ++ (hdrOf t ++ (body1 ++ ')' :: (M ++ (hdrOf t ++ (body2 ++ ')' :: Y)))))) =
      some (X, body1, M ++ (hdrOf t ++ (body2 ++ ')' :: Y))) := by
    rw [findBlockSplit_append _ _ (hdr_noStart hv hAinf),
      findBlockSplit_eq_some_of_try (hdr_append_ne_nil t _) htry1]
    simp
  have hrepl : scanReplace (tryBlockAt t)
      (mergedRepl t (mergeSources (cleanEntries body1) (removeDuplicates files)))
      (X ++ (hdrOf t ++ (body1 ++ ')' :: (M ++ (hdrOf t ++ (body2 ++ ')' :: Y)))))) =
      X ++ (hdrOf t ++
        (joinIndent (mergeSources (cleanEntries body1) (removeDuplicates files)) ++ ')' ::
          (M ++ (hdrOf t ++
            (joinIndent (mergeSources (cleanEntries body1) (removeDuplicates files)) ++ ')' :: Y))))) := by
    rw [scanReplace_append _ _ (hdr_noStart hv hAinf),
      scanReplace_front (tryBlockAt_shrink t) (hdr_append_ne_nil t _) htry1,
      scanReplace_append _ _ (hdr_noStart hv hMinf),
      scanReplace_front (tryBlockAt_shrink t) (hdr_append_ne_nil t _) htry2,
      scanReplace_id _ (tryBlockAt_none_all hYinf), mergedRepl_append, mergedRepl_append]
  constructor
  · simp only [addTargetEdit, hfie, Bool.false_eq_true, if_false, hexp, hTE, if_true, hsplit]
    rw [hrepl]
  · unfold targetBlocks
    rw [scanCollect_append _ _ (hdr_noStart hv hAinf),
      scanCollect_front (tryBlockAt_shrink t) (hdr_append_ne_nil t _)
        (tryBlockAt_front t _ _ hJne hJch),
      scanCollect_append _ _ (hdr_noStart hv hMinf),
      scanCollect_front (tryBlockAt_shrink t) (hdr_append_ne_nil t _)
        (tryBlockAt_front t _ Y hJne hJch),
      scanCollect_eq_nil _ (tryBlockAt_none_all hYinf)]
    simp only [List.map_cons, List.map_nil, hCE]

/-- Witness for C9 amended at a concrete two-block document. -/
theorem claim_C9_amended_witness :
    addTargetEdit
      (([] : Str) ++ (hdrOf "app".data ++ ("    x.cpp\n".data ++ ')' ::
        ("\n".data ++ (hdrOf "app".data ++ ("    y.cpp\n".data ++ ')' :: "\n".data))))))
      "app".data ["z.cpp".data] =
      some (([] : Str) ++ (hdrOf "app".data ++
        (joinIndent (mergeSources (cleanEntries "    x.cpp\n".data)
          (removeDuplicates ["z.cpp".data])) ++ ')' ::
          ("\n".data ++ (hdrOf "app".data ++
            (joinIndent (mergeSources (cleanEntries "    x.cpp\n".data)
              (removeDuplicates ["z.cpp".data])) ++ ')' :: "\n".data)))))) ∧
    targetBlocks "app".data (([] : Str) ++ (hdrOf "app".data ++
        (joinIndent (mergeSources (cleanEntries "    x.cpp\n".data)
          (removeDuplicates ["z.cpp".data])) ++ ')' ::
          ("\n".data ++ (hdrOf "app".data ++
            (joinIndent (mergeSources (cleanEntries "    x.cpp\n".data)
              (removeDuplicates ["z.cpp".data])) ++ ')' :: "\n".data)))))) =
      [mergeSources (cleanEntries "    x.cpp\n".data) (removeDuplicates ["z.cpp".data]),
        mergeSources (cleanEntries "    x.cpp\n".data) (removeDuplicates ["z.cpp".data])] :=
  claim_C9_amended "app".data [] "\n".data "\n".data "    x.cpp\n".data "    y.cpp\n".data
    ["z.cpp".data] (by decide) (by decide) (by decide) (by decide) (by decide) (by decide)
    (by decide) (by decide) (by decide) (by decide)

/-! ## Claim C5 -/

theorem digitChar_isDigit {m : Nat} (hm : m < 10) : (digitChar m).isDigit = true := by
  interval_cases m <;> decide

theorem natDigitsF_ne_nil : ∀ fuel n, natDigitsF fuel n ≠ [] := by
  intro fuel
  induction fuel with
  | zero => intro n; simp [natDigitsF]
  | succ f ih =>
    intro n
    simp only [natDigitsF]
    split_ifs with h
    · simp
    · intro hc
      exact ih (n / 10) (List.append_eq_nil.mp hc).1

theorem natDigitsF_all_digit : ∀ fuel n, ∀ a ∈ natDigitsF fuel n, a.isDigit = true := by
  intro fuel
  induction fuel with
  | zero =>
    intro n a ha
    simp only [natDigitsF, List.mem_singleton] at ha
    subst ha
    exact digitChar_isDigit (Nat.mod_lt _ (by omega))
  | succ f ih =>
    intro n a ha
    simp only [natDigitsF] at ha
    split_ifs at ha with h
    · simp only [List.mem_singleton] at ha
      subst ha
      exact digitChar_isDigit h
    · rcases List.mem_append.mp ha with h1 | h1
      · exact ih _ a h1
      · simp only [List.mem_singleton] at h1
        subst h1
        exact digitChar_isDigit (Nat.mod_lt _ (by omega))

theorem natDigits_ne_nil (n : Nat) : natDigits n ≠ [] := natDigitsF_ne_nil n n

theorem natDigits_all_digit (n : Nat) : ∀ a ∈ natDigits n, a.isDigit = true :=
  natDigitsF_all_digit n n

theorem borderFree_vLit : BorderFree vLit := by
  have h : vLit = "set(CMAKE_CXX_STANDARD".data ++ [' '] := by decide
  rw [h]
  exact borderFree_snoc (by decide)

theorem vLit_noStart {A W : Str} (hA : ¬ vLit <:+: A) :
    ∀ A2, A2 <:+ A → A2 ≠ [] → tryVersionAt (A2 ++ (vLit ++ W)) = none := by
  intro A2 hs hn
  apply tryVersionAt_none_of_misfit
  exact noStart_of hA (noSpill_border borderFree_vLit) A2 hs hn

theorem tryVersionAt_none_all {Y : Str} (hY : ¬ vLit <:+: Y) :
    ∀ s2, s2 <:+ Y → s2 ≠ [] → tryVersionAt s2 = none := by
  intro s2 hs _
  apply tryVersionAt_none_of_misfit
  intro hc
  exact hY (hc.isInfix.trans hs.isInfix)

theorem vLit_append_ne_nil (W : Str) : vLit ++ W ≠ [] := by
  intro hc
  exact absurd (List.append_eq_nil.mp hc).1 (by decide)

theorem versionStmt_append (v : Nat) (Y : Str) :
    versionStmt v ++ Y = vLit ++ (natDigits v ++ ')' :: Y) := by
  simp [versionStmt, List.append_assoc]

/-- C5 counterexample: on a document that already holds two version
statements, add-standard-settings(17) replaces both (`ReplaceAllString`),
so the result holds two version statements with value 17, not exactly
one. -/
theorem claim_C5_counterexample :
    versionStmts (addStandardConfig 17 doc5cex) = [natDigits 17, natDigits 17] ∧
    (versionStmts (addStandardConfig 17 doc5cex)).length ≠ 1 := by decide

/-- C5 amended: the version setting is upserted correctly on documents
holding at most one version statement: an existing statement is replaced
in place (no line added) and a missing one is supplied by appending the
version block; in both cases the result holds exactly one version
statement, with value v.  On documents already holding several version
statements, every one of them is replaced, so the singleton conclusion
needs the at-most-one precondition (see the counterexample). -/
theorem claim_C5_amended (v : Nat) (hv : 0 < v) :
    (∀ X Y ds : Str, occurs vLit X = false → occurs vLit Y = false →
      ds ≠ [] → (∀ a ∈ ds, a.isDigit = true) →
      occurs marker1 (X ++ (vLit ++ (ds ++ ')' :: Y))) = true →
      addStandardConfig v (X ++ (vLit ++ (ds ++ ')' :: Y))) =
        X ++ (vLit ++ (natDigits v ++ ')' :: Y)) ∧
      versionStmts (X ++ (vLit ++ (natDigits v ++ ')' :: Y))) = [natDigits v]) ∧
    (∀ d : Str, occurs vLit d = false → occurs marker1 d = true →
      addStandardConfig v d = d ++ versionBlockText v ∧
      versionStmts (d ++ versionBlockText v) = [natDigits v]) := by
  constructor
  · intro X Y ds hX hY hds hdig hm1
    have hXinf : ¬ vLit <:+: X := (occurs_eq_false_iff _ _).mp hX
    have hYinf : ¬ vLit <:+: Y := (occurs_eq_false_iff _ _).mp hY
    have hvme : versionMatchExists (X ++ (vLit ++ (ds ++ ')' :: Y))) = true := by
      unfold versionMatchExists
      rw [scanAny_iff]
      refine ⟨vLit ++ (ds ++ ')' :: Y), ⟨X, rfl⟩, ?_⟩
      show (tryVersionAt (vLit ++ (ds ++ ')' :: Y))).isSome = true
      rw [tryVersionAt_front ds Y hds hdig]
      rfl
    have hsc : (occurs marker1 (X ++ (vLit ++ (ds ++ ')' :: Y))) ||
        occurs marker2 (X ++ (vLit ++ (ds ++ ')' :: Y)))) = true := by
      rw [hm1, Bool.true_or]
    have hrepl : replaceVersionAll v (X ++ (vLit ++ (ds ++ ')' :: Y))) =
        X ++ (vLit ++ (natDigits v ++ ')' :: Y)) := by
      unfold replaceVersionAll
      rw [scanReplace_append _ _ (vLit_noStart hXinf),
        scanReplace_front tryVersionAt_shrink (vLit_append_ne_nil _)
          (tryVersionAt_front ds Y hds hdig),
        scanReplace_id _ (tryVersionAt_none_all hYinf), versionStmt_append]
    constructor
    · simp only [addStandardConfig, hsc, if_true, hv, hvme]
      exact hrepl
    · unfold versionStmts
      rw [scanCollect_append _ _ (vLit_noStart hXinf),
        scanCollect_front tryVersionAt_shrink (vLit_append_ne_nil _)
          (tryVersionAt_front _ Y (natDigits_ne_nil v) (natDigits_all_digit v)),
        scanCollect_eq_nil _ (tryVersionAt_none_all hYinf)]
  · intro d hdv hm1
    have hdinf : ¬ vLit <:+: d := (occurs_eq_false_iff _ _).mp hdv
    have hvme : versionMatchExists d = false := by
      unfold versionMatchExists
      cases hb : scanAny (fun s => (tryVersionAt s).isSome) d with
      | false => rfl
      | true =>
        obtain ⟨s2, hs2, ht⟩ := (scanAny_iff _ _).mp hb
        have ht2 : (tryVersionAt s2).isSome = true := ht
        exfalso
        rcases s2 with _ | ⟨c, r⟩
        · exact absurd ht2 (by decide)
        · rw [tryVersionAt_none_all hdinf _ hs2 (by simp)] at ht2
          exact Bool.noConfusion ht2
    have hsc : (occurs marker1 d || occurs marker2 d) = true := by
      rw [hm1, Bool.true_or]
    have hPinf : ¬ vLit <:+: "\n# C++ Standard\n".data :=
      (occurs_eq_false_iff _ _).mp (by decide)
    have hSinf : ¬ vLit <:+: "\nset(CMAKE_CXX_STANDARD_REQUIRED ON)\n".data :=
      (occurs_eq_false_iff _ _).mp (by decide)
    have hdP : ¬ vLit <:+: d ++ "\n# C++ Standard\n".data :=
      not_infix_append hdinf hPinf
        (noSpill_head '\n' "# C++ Standard\n".data (by decide) (by decide))
    have hshape : d ++ versionBlockText v =
        (d ++ "\n# C++ Standard\n".data) ++
          (vLit ++ (natDigits v ++ ')' ::
            "\nset(CMAKE_CXX_STANDARD_REQUIRED ON)\n".data)) := by
      rw [← versionStmt_append]
      simp [versionBlockText, List.append_assoc]
    constructor
    · simp only [addStandardConfig, hsc, if_true, hv, hvme, Bool.false_eq_true, if_false]
    · rw [hshape]
      unfold versionStmts
      rw [scanCollect_append _ _ (vLit_noStart hdP),
        scanCollect_front tryVersionAt_shrink (vLit_append_ne_nil _)
          (tryVersionAt_front _ _ (natDigits_ne_nil v) (natDigits_all_digit v)),
        scanCollect_eq_nil _ (tryVersionAt_none_all hSinf)]

/-- Witness for C5 amended: the replace branch at a concrete document
with one version statement, and the append branch at a concrete document
with none. -/
theorem claim_C5_amended_witness :
    (addStandardConfig 17 ("set(CMAKE_RUNTIME_OUTPUT_DIRECTORY x)\n".data ++
        (vLit ++ ("11".data ++ ')' :: "\n".data))) =
      "set(CMAKE_RUNTIME_OUTPUT_DIRECTORY x)\n".data ++
        (vLit ++ (natDigits 17 ++ ')' :: "\n".data)) ∧
      versionStmts ("set(CMAKE_RUNTIME_OUTPUT_DIRECTORY x)\n".data ++
        (vLit ++ (natDigits 17 ++ ')' :: "\n".data))) = [natDigits 17]) ∧
    (addStandardConfig 17 "set(CMAKE_RUNTIME_OUTPUT_DIRECTORY x)\n".data =
      "set(CMAKE_RUNTIME_OUTPUT_DIRECTORY x)\n".data ++ versionBlockText 17 ∧
      versionStmts ("set(CMAKE_RUNTIME_OUTPUT_DIRECTORY x)\n".data ++
        versionBlockText 17) = [natDigits 17]) :=
  ⟨(claim_C5_amended 17 (by decide)).1 "set(CMAKE_RUNTIME_OUTPUT_DIRECTORY x)\n".data
      "\n".data "11".data (by decide) (by decide) (by decide) (by decide) (by decide),
    (claim_C5_amended 17 (by decide)).2 "set(CMAKE_RUNTIME_OUTPUT_DIRECTORY x)\n".data
      (by decide) (by decide)⟩

/-! ## Claim C8 -/

theorem ident_no_lparen {t : Str} (hv : validName t = true) : '(' ∉ t := by
  intro hm
  exact identChar_not_special (validName_mem hv hm) (Or.inr (Or.inl rfl))

theorem ident_no_rparen {t : Str} (hv : validName t = true) : ')' ∉ t := by
  intro hm
  exact identChar_not_special (validName_mem hv hm) (Or.inr (Or.inr (Or.inl rfl)))

theorem ident_no_nl {t : Str} (hv : validName t = true) : '\n' ∉ t := by
  intro hm
  exact identChar_not_special (validName_mem hv hm) (Or.inl rfl)

/-- A pattern whose unique `z` is preceded by `x` cannot occur in a text
whose unique `z` is preceded by `y ≠ x`. -/
theorem not_infix_unique_mid {z x y : Char} (W R U V : Str)
    (hxy : x ≠ y) (hzy : z ≠ y) (hxz : x ≠ z) (hzU : z ∉ U) (hzV : z ∉ V) :
    ¬ (W ++ x :: z :: R) <:+: (U ++ y :: z :: V) := by
  rintro ⟨L, M, hLM⟩
  have hP : (L ++ W) ++ (x :: z :: (R ++ M)) = U ++ y :: z :: V := by
    rw [List.append_assoc]
    simpa [List.append_assoc] using hLM
  rcases List.append_eq_append_iff.mp hP with ⟨U2, hU, h2⟩ | ⟨P2, hPP, h2⟩
  · cases U2 with
    | nil =>
      simp only [List.nil_append, List.cons.injEq] at h2
      exact hxy h2.1
    | cons u1 U3 =>
      simp only [List.cons_append, List.cons.injEq] at h2
      obtain ⟨hx1, h3⟩ := h2
      cases U3 with
      | nil =>
        simp only [List.nil_append, List.cons.injEq] at h3
        exact hzy h3.1
      | cons u2 U4 =>
        simp only [List.cons_append, List.cons.injEq] at h3
        obtain ⟨hz2, h4⟩ := h3
        apply hzU
        rw [hU]
        refine List.mem_append_right _ ?_
        rw [← hz2] at *
        exact List.mem_cons_of_mem u1 (List.mem_cons_self _ _)
  · cases P2 with
    | nil =>
      simp only [List.nil_append, List.cons.injEq] at h2
      exact hxy h2.1.symm
    | cons p1 P3 =>
      simp only [List.cons_append, List.cons.injEq] at h2
      obtain ⟨hy1, h3⟩ := h2
      cases P3 with
      | nil =>
        simp only [List.nil_append, List.cons.injEq] at h3
        exact hxz h3.1.symm
      | cons p2 P4 =>
        simp only [List.cons_append, List.cons.injEq] at h3
        obtain ⟨hz2, h4⟩ := h3
        apply hzV
        rw [h4]
        exact List.mem_append_right _ (List.mem_cons_of_mem x (List.mem_cons_self z _))

theorem addSubdirLine_shape (c : Str) :
    addSubdirLine c = "add_subdirector".data ++ 'y' :: '(' :: (c ++ [')']) := by
  have h : "add_subdirectory(".data = "add_subdirector".data ++ ['y', '('] := by decide
  simp [addSubdirLine, h, List.append_assoc]

theorem linkLine_shape (pName c : Str) :
    linkLine pName c =
      "target_link_librarie".data ++
        's' :: '(' :: (pName ++ (" PRIVATE ".data ++ (c ++ [')']))) := by
  have h : "target_link_libraries(".data = "target_link_librarie".data ++ ['s', '('] := by
    decide
  simp [linkLine, h, List.append_assoc]

theorem subdirAppendix_shape (c : Str) :
    subdirAppendix c =
      ("\n# Include the ".data ++ c ++ " sub-project\n".data ++ "add_subdirector".data) ++
        'y' :: '(' :: (c ++ [')'] ++ ['\n']) := by
  simp [subdirAppendix, addSubdirLine_shape, List.append_assoc]

theorem linkAppendix_shape (pName c : Str) :
    linkAppendix pName c =
      ("\n# Link the ".data ++ c ++ " sub-project\n".data ++ "target_link_librarie".data) ++
        's' :: '(' :: (pName ++ " PRIVATE ".data ++ c ++ [')'] ++ ['\n']) := by
  simp [linkAppendix, linkLine_shape, List.append_assoc]

theorem addSubdirLine_not_infix_linkAppendix {pName c : Str}
    (hp : validName pName = true) (hc : validName c = true) :
    ¬ addSubdirLine c <:+: linkAppendix pName c := by
  rw [addSubdirLine_shape, linkAppendix_shape]
  apply not_infix_unique_mid _ _ _ _ (by decide) (by decide) (by decide)
  · intro hm
    rcases List.mem_append.mp hm with hm | hm
    · rcases List.mem_append.mp hm with hm | hm
      · rcases List.mem_append.mp hm with hm | hm
        · exact absurd hm (by decide)
        · exact ident_no_lparen hc hm
      · exact absurd hm (by decide)
    · exact absurd hm (by decide)
  · intro hm
    rcases List.mem_append.mp hm with hm | hm
    · rcases List.mem_append.mp hm with hm | hm
      · rcases List.mem_append.mp hm with hm | hm
        · rcases List.mem_append.mp hm with hm | hm
          · exact ident_no_lparen hp hm
          · exact absurd hm (by decide)
        · exact ident_no_lparen hc hm
      · exact absurd hm (by decide)
    · exact absurd hm (by decide)

theorem linkLine_not_infix_subdirAppendix {pName c : Str}
    (hp : validName pName = true) (hc : validName c = true) :
    ¬ linkLine pName c <:+: subdirAppendix c := by
  rw [linkLine_shape, subdirAppendix_shape]
  apply not_infix_unique_mid _ _ _ _ (by decide) (by decide) (by decide)
  · intro hm
    rcases List.mem_append.mp hm with hm | hm
    · rcases List.mem_append.mp hm with hm | hm
      · rcases List.mem_append.mp hm with hm | hm
        · exact absurd hm (by decide)
        · exact ident_no_lparen hc hm
      · exact absurd hm (by decide)
    · exact absurd hm (by decide)
  · intro hm
    rcases List.mem_append.mp hm with hm | hm
    · rcases List.mem_append.mp hm with hm | hm
      · exact ident_no_lparen hc hm
      · exact absurd hm (by decide)
    · exact absurd hm (by decide)

theorem borderFree_addSubdirLine {c : Str} (hc : validName c = true) :
    BorderFree (addSubdirLine c) := by
  show BorderFree (("add_subdirectory(".data ++ c) ++ [')'])
  apply borderFree_snoc
  intro hm
  rcases List.mem_append.mp hm with hm | hm
  · exact absurd hm (by decide)
  · exact ident_no_rparen hc hm

theorem borderFree_linkLine {pName c : Str} (hp : validName pName = true)
    (hc : validName c = true) : BorderFree (linkLine pName c) := by
  show BorderFree (((("target_link_libraries(".data ++ pName) ++ " PRIVATE ".data) ++ c) ++ [')'])
  apply borderFree_snoc
  intro hm
  rcases List.mem_append.mp hm with hm | hm
  · rcases List.mem_append.mp hm with hm | hm
    · rcases List.mem_append.mp hm with hm | hm
      · exact absurd hm (by decide)
      · exact ident_no_rparen hp hm
    · exact absurd hm (by decide)
  · exact ident_no_rparen hc hm

theorem lparen_mem_addSubdirLine (c : Str) : '(' ∈ addSubdirLine c := by
  unfold addSubdirLine
  exact List.mem_append_left _ (List.mem_append_left _ (by decide))

theorem lparen_mem_linkLine (pName c : Str) : '(' ∈ linkLine pName c := by
  unfold linkLine
  exact List.mem_append_left _ (List.mem_append_left _
    (List.mem_append_left _ (List.mem_append_left _ (by decide))))

theorem nl_not_mem_addSubdirLine {c : Str} (hc : validName c = true) :
    '\n' ∉ addSubdirLine c := by
  intro hm
  unfold addSubdirLine at hm
  rcases List.mem_append.mp hm with hm | hm
  · rcases List.mem_append.mp hm with hm | hm
    · exact absurd hm (by decide)
    · exact ident_no_nl hc hm
  · exact absurd hm (by decide)

theorem nl_not_mem_linkLine {pName c : Str} (hp : validName pName = true)
    (hc : validName c = true) : '\n' ∉ linkLine pName c := by
  intro hm
  unfold linkLine at hm
  rcases List.mem_append.mp hm with hm | hm
  · rcases List.mem_append.mp hm with hm | hm
    · rcases List.mem_append.mp hm with hm | hm
      · rcases List.mem_append.mp hm with hm | hm
        · exact absurd hm (by decide)
        · exact ident_no_nl hp hm
      · exact absurd hm (by decide)
    · exact ident_no_nl hc hm
  · exact absurd hm (by decide)

theorem addSubdirLine_ne_nil (c : Str) : addSubdirLine c ≠ [] := by
  intro h
  unfold addSubdirLine at h
  exact absurd (List.append_eq_nil.mp h).2 (by decide)

theorem linkLine_ne_nil (pName c : Str) : linkLine pName c ≠ [] := by
  intro h
  unfold linkLine at h
  exact absurd (List.append_eq_nil.mp h).2 (by decide)

theorem addSubdirLine_length (c : Str) : (addSubdirLine c).length = 18 + c.length := by
  have h : ("add_subdirectory(".data).length = 17 := by decide
  unfold addSubdirLine
  simp only [List.length_append, List.length_cons, List.length_nil, h]
  omega

theorem linkLine_length (pName c : Str) :
    (linkLine pName c).length = 32 + pName.length + c.length := by
  have h1 : ("target_link_libraries(".data).length = 22 := by decide
  have h2 : (" PRIVATE ".data).length = 9 := by decide
  unfold linkLine
  simp only [List.length_append, List.length_cons, List.length_nil, h1, h2]
  omega

theorem noSpill_head2 {pat X Y : Str} {c : Char} (hh : Y.head? = some c)
    (hc : c ∉ pat) : NoSpill pat X Y := by
  cases Y with
  | nil => exact absurd hh (by simp)
  | cons b Y2 =>
    have hb : b = c := by simpa using hh
    subst hb
    exact noSpill_head b Y2 rfl hc

theorem head2_append {X Y : Str} {c : Char} (h : X.head? = some c) :
    (X ++ Y).head? = some c := by
  cases X with
  | nil => exact absurd h (by simp)
  | cons a r => simpa using h

theorem countOcc_addSubdirLine_subdirAppendix {c : Str} (hc : validName c = true) :
    countOcc (addSubdirLine c) (subdirAppendix c) = 1 := by
  have hshape : subdirAppendix c =
      ("\n# Include the ".data ++ c ++ " sub-project\n".data) ++
        (addSubdirLine c ++ ['\n']) := by
    simp [subdirAppendix, List.append_assoc]
  have hP1 : ¬ addSubdirLine c <:+:
      ("\n# Include the ".data ++ c ++ " sub-project\n".data) := by
    apply not_infix_of_mem (lparen_mem_addSubdirLine c)
    intro hm
    rcases List.mem_append.mp hm with hm | hm
    · rcases List.mem_append.mp hm with hm | hm
      · exact absurd hm (by decide)
      · exact ident_no_lparen hc hm
    · exact absurd hm (by decide)
  rw [hshape, countOcc_append (noSpill_border (borderFree_addSubdirLine hc)),
    countOcc_append (noSpill_head '\n' [] rfl (nl_not_mem_addSubdirLine hc)),
    countOcc_self (addSubdirLine_ne_nil c),
    countOcc_eq_zero_of_absent hP1,
    countOcc_eq_zero_of_lt
      (by rw [addSubdirLine_length]; simp only [List.length_cons, List.length_nil]; omega)]

theorem countOcc_linkLine_linkAppendix {pName c : Str} (hp : validName pName = true)
    (hc : validName c = true) :
    countOcc (linkLine pName c) (linkAppendix pName c) = 1 := by
  have hshape : linkAppendix pName c =
      ("\n# Link the ".data ++ c ++ " sub-project\n".data) ++
        (linkLine pName c ++ ['\n']) := by
    simp [linkAppendix, List.append_assoc]
  have hP2 : ¬ linkLine pName c <:+:
      ("\n# Link the ".data ++ c ++ " sub-project\n".data) := by
    apply not_infix_of_mem (lparen_mem_linkLine pName c)
    intro hm
    rcases List.mem_append.mp hm with hm | hm
    · rcases List.mem_append.mp hm with hm | hm
      · exact absurd hm (by decide)
      · exact ident_no_lparen hc hm
    · exact absurd hm (by decide)
  rw [hshape, countOcc_append (noSpill_border (borderFree_linkLine hp hc)),
    countOcc_append (noSpill_head '\n' [] rfl (nl_not_mem_linkLine hp hc)),
    countOcc_self (linkLine_ne_nil pName c),
    countOcc_eq_zero_of_absent hP2,
    countOcc_eq_zero_of_lt
      (by rw [linkLine_length]; simp only [List.length_cons, List.length_nil]; omega)]

theorem updateParent_fresh_props {pName c doc : Str}
    (hp : validName pName = true) (hc : validName c = true)
    (h1 : occurs (addSubdirLine c) doc = false)
    (h2 : occurs (linkLine pName c) doc = false) :
    updateParent pName c doc = doc ++ (subdirAppendix c ++ linkAppendix pName c) ∧
    countOcc (addSubdirLine c) (updateParent pName c doc) = 1 ∧
    countOcc (linkLine pName c) (updateParent pName c doc) = 1 ∧
    updateParent pName c (updateParent pName c doc) = updateParent pName c doc := by
  have hAninf : ¬ addSubdirLine c <:+: doc := (occurs_eq_false_iff _ _).mp h1
  have hLninf : ¬ linkLine pName c <:+: doc := (occurs_eq_false_iff _ _).mp h2
  have hsubhead : (subdirAppendix c).head? = some '\n' := by
    have h : "\n# Include the ".data = '\n' :: "# Include the ".data := by decide
    simp [subdirAppendix, h]
  have hlinkhead : (linkAppendix pName c).head? = some '\n' := by
    have h : "\n# Link the ".data = '\n' :: "# Link the ".data := by decide
    simp [linkAppendix, h]
  have hnlA := nl_not_mem_addSubdirLine hc
  have hnlL := nl_not_mem_linkLine hp hc
  have hocc2 : occurs (linkLine pName c) (doc ++ subdirAppendix c) = false := by
    rw [occurs_eq_false_iff]
    exact not_infix_append hLninf (linkLine_not_infix_subdirAppendix hp hc)
      (noSpill_head2 hsubhead hnlL)
  have hrun : updateParent pName c doc =
      doc ++ subdirAppendix c ++ linkAppendix pName c := by
    simp only [updateParent, h1, Bool.false_eq_true, if_false, hocc2]
  have hshape : doc ++ subdirAppendix c ++ linkAppendix pName c =
      doc ++ (subdirAppendix c ++ linkAppendix pName c) := List.append_assoc _ _ _
  have hsApp_head : (subdirAppendix c ++ linkAppendix pName c).head? = some '\n' :=
    head2_append hsubhead
  have hcountA : countOcc (addSubdirLine c)
      (doc ++ (subdirAppendix c ++ linkAppendix pName c)) = 1 := by
    rw [countOcc_append (noSpill_head2 hsApp_head hnlA),
      countOcc_append (noSpill_head2 hlinkhead hnlA),
      countOcc_eq_zero_of_absent hAninf,
      countOcc_addSubdirLine_subdirAppendix hc,
      countOcc_eq_zero_of_absent (addSubdirLine_not_infix_linkAppendix hp hc)]
  have hcountL : countOcc (linkLine pName c)
      (doc ++ (subdirAppendix c ++ linkAppendix pName c)) = 1 := by
    rw [countOcc_append (noSpill_head2 hsApp_head hnlL),
      countOcc_append (noSpill_head2 hlinkhead hnlL),
      countOcc_eq_zero_of_absent hLninf,
      countOcc_eq_zero_of_absent (linkLine_not_infix_subdirAppendix hp hc),
      countOcc_linkLine_linkAppendix hp hc]
  have hoccA : occurs (addSubdirLine c)
      (doc ++ subdirAppendix c ++ linkAppendix pName c) = true := by
    have hsh : doc ++ subdirAppendix c ++ linkAppendix pName c =
        (doc ++ ("\n# Include the ".data ++ c ++ " sub-project\n".data)) ++
          addSubdirLine c ++ (['\n'] ++ linkAppendix pName c) := by
      simp [subdirAppendix, List.append_assoc]
    rw [hsh]
    exact occurs_sandwich _ _ _
  have hoccL : occurs (linkLine pName c)
      (doc ++ subdirAppendix c ++ linkAppendix pName c) = true := by
    have hsh : doc ++ subdirAppendix c ++ linkAppendix pName c =
        (doc ++ subdirAppendix c ++
          ("\n# Link the ".data ++ c ++ " sub-project\n".data)) ++
          linkLine pName c ++ ['\n'] := by
      simp [linkAppendix, List.append_assoc]
    rw [hsh]
    exact occurs_sandwich _ _ _
  have hidem : updateParent pName c (doc ++ subdirAppendix c ++ linkAppendix pName c) =
      doc ++ subdirAppendix c ++ linkAppendix pName c := by
    simp only [updateParent, hoccA, if_true, hoccL]
  refine ⟨by rw [hrun, hshape], ?_, ?_, ?_⟩
  · rw [hrun, hshape]
    exact hcountA
  · rw [hrun, hshape]
    exact hcountL
  · rw [hrun]
    exact hidem

/-- C8: when the parent document does not yet reference the child, a run of
initialize-sub-project leaves it with exactly one subdirectory-inclusion
statement and exactly one link statement for that child, and a second run
with the same child name detects both as present and changes nothing. -/
theorem claim_C8 (env : Env) (c doc d : Str)
    (hp : validName (baseName env.cwd) = true) (hc : validName c = true)
    (h1 : occurs (addSubdirLine c) doc = false)
    (h2 : occurs (linkLine (baseName env.cwd) c) doc = false)
    (hd : initSubProjectParent env c doc = some d) :
    countOcc (addSubdirLine c) d = 1 ∧
    countOcc (linkLine (baseName env.cwd) c) d = 1 ∧
    initSubProjectParent env c d = some d := by
  obtain ⟨-, hcA, hcL, hid⟩ := updateParent_fresh_props hp hc h1 h2
  unfold initSubProjectParent at hd
  split_ifs at hd with g1 g2
  all_goals try exact Option.noConfusion hd
  have hdd : d = updateParent (baseName env.cwd) c doc := (Option.some.inj hd).symm
  subst hdd
  refine ⟨hcA, hcL, ?_⟩
  unfold initSubProjectParent
  rw [if_neg g1, if_neg g2, hid]

/-- Witness for C8 at a concrete environment and empty parent document. -/
theorem claim_C8_witness :
    countOcc (addSubdirLine "child".data)
      "\n# Include the child sub-project\nadd_subdirectory(child)\n\n# Link the child sub-project\ntarget_link_libraries(proj PRIVATE child)\n".data = 1 ∧
    countOcc (linkLine (baseName envExistsW.cwd) "child".data)
      "\n# Include the child sub-project\nadd_subdirectory(child)\n\n# Link the child sub-project\ntarget_link_libraries(proj PRIVATE child)\n".data = 1 ∧
    initSubProjectParent envExistsW "child".data
      "\n# Include the child sub-project\nadd_subdirectory(child)\n\n# Link the child sub-project\ntarget_link_libraries(proj PRIVATE child)\n".data =
      some "\n# Include the child sub-project\nadd_subdirectory(child)\n\n# Link the child sub-project\ntarget_link_libraries(proj PRIVATE child)\n".data :=
  claim_C8 envExistsW "child".data []
    "\n# Include the child sub-project\nadd_subdirectory(child)\n\n# Link the child sub-project\ntarget_link_libraries(proj PRIVATE child)\n".data
    (by decide) (by decide) (by decide) (by decide) (by decide)

end QS
